import Mathlib

/-!
Verification of the AMBOSS screenshot scraper's job-tracking data model and
orchestration logic (`src/amboss/db.py`, `src/amboss/tasks.py`) together with
the validator, expander and shooter modules (`src/amboss/validator.py`,
`src/amboss/expander.py`, `src/amboss/shooter.py`).

The SQLite store is embedded as in-memory lists of records in insertion
(rowid) order; each database method of `DatabaseManager` becomes a pure
function on `DbState`.  The orchestrator's batch and retry loops are embedded
as state-passing functions that additionally record every intermediate
database state (the state after each executed SQL statement), so that
invariants can be stated about all states an execution passes through.
Browser-side effects (navigation, DOM interaction, screenshot rasterization)
are external collaborators; their outcome for a given article slug is
abstracted as an environment `Env`.
-/

namespace Amboss

/-- Lifecycle status of a URL record.  Mirrors the SQL CHECK constraint
`status IN ('pending','processing','done','failed_expansion','failed_validation')`
in `DatabaseManager._create_tables`. -/
inductive Status where
  | pending
  | processing
  | done
  | failed_expansion
  | failed_validation
deriving DecidableEq, Repr

/-- The TEXT stored in the `status` column for each `Status` value. -/
def Status.text : Status → String
  | .pending => "pending"
  | .processing => "processing"
  | .done => "done"
  | .failed_expansion => "failed_expansion"
  | .failed_validation => "failed_validation"

/-- `status LIKE 'failed_%'` as used by `get_failed_urls`. -/
def Status.isFailed : Status → Bool
  | .failed_expansion => true
  | .failed_validation => true
  | _ => false

/-- A row of the `urls` table (slug is the primary key). -/
structure UrlRec where
  slug : String
  url : String
  status : Status
  last_error : Option String
  retry_count : Nat
deriving DecidableEq, Repr

/-- A row of the `runs` table (primary key `(run_id, slug)`).  `finished`
records whether the `finished` timestamp column has been set. -/
structure RunRec where
  run_id : String
  slug : String
  finished : Bool
  ok : Option Bool
  error_msg : Option String
deriving DecidableEq, Repr

/-- A row of the `images` table (primary key `(run_id, slug, idx)`). -/
structure ImageRec where
  run_id : String
  slug : String
  filename : String
  idx : Nat
  section_title : String
deriving DecidableEq, Repr

/-- The whole SQLite database, rows in insertion (rowid) order. -/
structure DbState where
  urls : List UrlRec
  runs : List RunRec
  images : List ImageRec
deriving DecidableEq, Repr

/-- The freshly created database (`_create_tables` on a new file). -/
def dbInit : DbState := ⟨[], [], []⟩

/-- `DatabaseManager.add_url`: `INSERT OR IGNORE INTO urls (slug, url)`.
A row whose slug is already present is ignored; the method returns `True`
either way. -/
def add_url (s : DbState) (slug url : String) : DbState × Bool :=
  if s.urls.any (fun u => u.slug == slug) then
    (s, true)
  else
    ({ s with urls := s.urls ++ [⟨slug, url, .pending, none, 0⟩] }, true)

/-- `DatabaseManager.get_pending_urls`: `SELECT slug, url FROM urls WHERE
status = 'pending'`, with `LIMIT n` appended only when the Python `limit`
argument is truthy (i.e. not `None` and not `0`). -/
def get_pending_urls (s : DbState) (limit : Option Nat) : List (String × String) :=
  let rows := (s.urls.filter (fun u => u.status == .pending)).map (fun u => (u.slug, u.url))
  match limit with
  | some n => if n ≠ 0 then rows.take n else rows
  | none => rows

/-- `DatabaseManager.get_failed_urls`: `SELECT slug, url, last_error FROM urls
WHERE status LIKE 'failed_%'`. -/
def get_failed_urls (s : DbState) : List (String × String × Option String) :=
  (s.urls.filter (fun u => u.status.isFailed)).map (fun u => (u.slug, u.url, u.last_error))

/-- Python truthiness of the optional `error` argument of
`update_url_status` (`if error:`): `None` and the empty string are falsy. -/
def errTruthy : Option String → Bool
  | some e => e ≠ ""
  | none => false

/-- The per-row effect of `update_url_status` on a matching row. -/
def updateRec (status : Status) (error : Option String) (u : UrlRec) : UrlRec :=
  if errTruthy error then
    { u with status := status, last_error := error, retry_count := u.retry_count + 1 }
  else
    { u with status := status }

/-- `DatabaseManager.update_url_status`: with a truthy error it also stores
the error text and increments `retry_count`; otherwise only the status
changes. -/
def update_url_status (s : DbState) (slug : String) (status : Status)
    (error : Option String) : DbState :=
  { s with urls := s.urls.map (fun u =>
      if u.slug == slug then updateRec status error u else u) }

/-- `DatabaseManager.start_run`: `INSERT INTO runs (run_id, slug)`.  The
insert fails (the method returns `False` and the table is unchanged) when the
primary key `(run_id, slug)` already exists or when the foreign key
`slug REFERENCES urls(slug)` is violated (`PRAGMA foreign_keys = ON`). -/
def start_run (s : DbState) (run_id slug : String) : DbState × Bool :=
  if s.runs.any (fun r => r.run_id == run_id && r.slug == slug)
      || !(s.urls.any (fun u => u.slug == slug)) then
    (s, false)
  else
    ({ s with runs := s.runs ++ [⟨run_id, slug, false, none, none⟩] }, true)

/-- `DatabaseManager.finish_run`: `UPDATE runs SET finished =
CURRENT_TIMESTAMP, ok = ?, error_msg = ? WHERE run_id = ? AND slug = ?`. -/
def finish_run (s : DbState) (run_id slug : String) (ok : Bool)
    (error_msg : Option String) : DbState :=
  { s with runs := s.runs.map (fun r =>
      if r.run_id == run_id && r.slug == slug then
        { r with finished := true, ok := some ok, error_msg := error_msg }
      else r) }

/-- `DatabaseManager.add_image`: plain `INSERT INTO images`.  The insert
raises (here: returns `false`, table unchanged) when the primary key
`(run_id, slug, idx)` already exists or when the foreign key
`(run_id, slug) REFERENCES runs(run_id, slug)` is violated. -/
def add_image (s : DbState) (run_id slug filename : String) (idx : Nat)
    (section_title : String) : DbState × Bool :=
  if s.images.any (fun i => i.run_id == run_id && i.slug == slug && i.idx == idx)
      || !(s.runs.any (fun r => r.run_id == run_id && r.slug == slug)) then
    (s, false)
  else
    ({ s with images := s.images ++ [⟨run_id, slug, filename, idx, section_title⟩] }, true)

/-- Status of the (first) `urls` row with the given slug, if any. -/
def getStatus (s : DbState) (slug : String) : Option Status :=
  (s.urls.find? (fun u => u.slug == slug)).map (·.status)

/-! ## Orchestrator (`src/amboss/tasks.py`)

`ScrapingTask.process_slug` drives the browser: navigate, verify auth,
expand, validate, capture screenshots, then `_save_results`.  Everything up
to `_save_results` touches only the browser, not the database; its outcome
for a slug is abstracted as an `Outcome` supplied by the environment.  The
functions below return, besides the final database state, the list of all
intermediate database states (the state after each executed SQL statement),
so that invariants over whole executions can be stated. -/

/-- One captured screenshot as returned by `ScreenshotShooter.shoot_sections`:
`(filename, index, section_title)`. -/
structure Shot where
  filename : String
  idx : Nat
  section_title : String
deriving DecidableEq, Repr

/-- Browser-side outcome of processing one slug in `process_slug`:
either every step up to screenshot capture succeeded (yielding the captured
shots), or expansion raised `ExpansionFailure`, or post-expansion validation
failed (`validation_passed` false, with the stringified error list), or some
other step (navigation, auth, screenshot capture) raised. -/
inductive Outcome where
  | success (shots : List Shot)
  | expansionFailed (msg : String)
  | validationFailed (errs : String)
  | otherFailure (msg : String)

/-- The environment: what the browser does for each slug. -/
def Env := String → Outcome

/-- `ScrapingTask._save_results`: one `add_image` per screenshot triple.  A
database error aborts the loop and propagates (the Boolean result).  The
trace lists the database state after each insert. -/
def save_results (s : DbState) (run_id slug : String) :
    List Shot → DbState × Bool × List DbState
  | [] => (s, true, [])
  | shot :: rest =>
    let r1 := add_image s run_id slug shot.filename shot.idx shot.section_title
    if r1.2 then
      let r2 := save_results r1.1 run_id slug rest
      (r2.1, r2.2.1, r1.1 :: r2.2.2)
    else
      (r1.1, false, [r1.1])

/-- Error message used when a database insert fails inside `_save_results`
(in Python the stringified `aiosqlite` exception, caught by `process_slug`). -/
def integrityErrorMsg : String := "UNIQUE or FOREIGN KEY constraint failed: images"

/-- `ScrapingTask.process_slug`: returns `(state, success, error_msg)` plus
the intermediate database states.  On any browser-side failure it returns
`(False, str(e))` without touching the database; a validation failure raises
`ExpansionFailure("Page validation failed: ...")` which the same handler
stringifies. -/
def process_slug (env : Env) (s : DbState) (slug run_id : String) :
    DbState × Bool × Option String × List DbState :=
  match env slug with
  | .success shots =>
    let r := save_results s run_id slug shots
    if r.2.1 then (r.1, true, none, r.2.2)
    else (r.1, false, some integrityErrorMsg, r.2.2)
  | .expansionFailed msg => (s, false, some msg, [])
  | .validationFailed errs => (s, false, some ("Page validation failed: " ++ errs), [])
  | .otherFailure msg => (s, false, some msg, [])

/-- One iteration of the loop in `ScrapingTask.process_pending_urls`:
status to `processing`, `start_run`, `process_slug`, then on success
status `done` and `finish_run(True)`, otherwise status `failed_expansion`
(regardless of which phase failed) and `finish_run(False, error)`. -/
def process_one (env : Env) (run_id : String) (s : DbState) (slug _url : String) :
    DbState × Bool × List DbState :=
  let s1 := update_url_status s slug .processing none
  let s2 := (start_run s1 run_id slug).1
  let r := process_slug env s2 slug run_id
  let s3 := r.1
  let err := r.2.2.1
  let tr := r.2.2.2
  if r.2.1 then
    let s4 := update_url_status s3 slug .done none
    let s5 := finish_run s4 run_id slug true none
    (s5, true, s1 :: s2 :: (tr ++ [s4, s5]))
  else
    let s4 := update_url_status s3 slug .failed_expansion err
    let s5 := finish_run s4 run_id slug false err
    (s5, false, s1 :: s2 :: (tr ++ [s4, s5]))

/-- The `for slug, url in pending_urls:` loop of `process_pending_urls`,
threading the database state and accumulating `(successful, failed)`. -/
def process_list (env : Env) (run_id : String) (s : DbState) :
    List (String × String) → DbState × Nat × Nat × List DbState
  | [] => (s, 0, 0, [])
  | (slug, url) :: rest =>
    let r1 := process_one env run_id s slug url
    let r2 := process_list env run_id r1.1 rest
    (r2.1, (if r1.2.1 then r2.2.1 + 1 else r2.2.1),
      (if r1.2.1 then r2.2.2.1 else r2.2.2.1 + 1), r1.2.2 ++ r2.2.2.2)

/-- Result dictionary of `process_pending_urls` / `retry_failed_urls`. -/
structure BatchResult where
  processed : Nat
  successful : Nat
  failed : Nat
deriving DecidableEq, Repr

/-- `ScrapingTask.process_pending_urls`: fetch the pending URLs (up to
`limit`), return zero counts when none, otherwise run the loop. -/
def process_pending_urls (env : Env) (run_id : String) (limit : Option Nat)
    (s : DbState) : DbState × BatchResult × List DbState :=
  let pending := get_pending_urls s limit
  if pending.isEmpty then
    (s, ⟨0, 0, 0⟩, [])
  else
    let r := process_list env run_id s pending
    (r.1, ⟨pending.length, r.2.1, r.2.2.1⟩, r.2.2.2)

/-- The reset loop of `retry_failed_urls`:
`for slug, url, error in failed_urls: update_url_status(slug, "pending")`. -/
def reset_failed (s : DbState) :
    List (String × String × Option String) → DbState × List DbState
  | [] => (s, [])
  | (slug, _, _) :: rest =>
    let s1 := update_url_status s slug .pending none
    let r := reset_failed s1 rest
    (r.1, s1 :: r.2)

/-- `ScrapingTask.retry_failed_urls`: fetch the failed URLs, return zero
counts when none, otherwise reset them all to `pending` and process them as
pending URLs with `limit = len(failed_urls)`. -/
def retry_failed_urls (env : Env) (run_id : String) (s : DbState) :
    DbState × BatchResult × List DbState :=
  let failed := get_failed_urls s
  if failed.isEmpty then
    (s, ⟨0, 0, 0⟩, [])
  else
    let r1 := reset_failed s failed
    let r2 := process_pending_urls env run_id (some failed.length) r1.1
    (r2.1, r2.2.1, r1.2 ++ r2.2.2)

/-! ## Reachability

The orchestrator's state-changing operations on the database: URL discovery
inserts (`discover_articles` → `db.add_url`), batch processing
(`run_processing` → `process_pending_urls`) and retry (`run_retry` →
`retry_failed_urls`).  Batch and retry are always invoked with a fresh
`run_id = str(uuid.uuid4())`; freshness is the hypothesis `opFresh`. -/

inductive Op where
  | addUrl (slug url : String)
  | processPending (env : Env) (run_id : String) (limit : Option Nat)
  | retryFailed (env : Env) (run_id : String)

/-- Final database state of an operation. -/
def applyOp (s : DbState) : Op → DbState
  | .addUrl slug url => (add_url s slug url).1
  | .processPending env rid limit => (process_pending_urls env rid limit s).1
  | .retryFailed env rid => (retry_failed_urls env rid s).1

/-- All intermediate database states of an operation, in execution order,
ending (when any statement executed) with the final state. -/
def opTrace (s : DbState) : Op → List DbState
  | .addUrl slug url => [(add_url s slug url).1]
  | .processPending env rid limit => (process_pending_urls env rid limit s).2.2
  | .retryFailed env rid => (retry_failed_urls env rid s).2.2

/-- The `run_id` of a batch or retry operation is a fresh UUID: it occurs
nowhere in the `runs` table (nor, consequently, in `images`). -/
def opFresh (s : DbState) : Op → Prop
  | .addUrl _ _ => True
  | .processPending _ rid _ => ∀ r ∈ s.runs, r.run_id ≠ rid
  | .retryFailed _ rid => ∀ r ∈ s.runs, r.run_id ≠ rid

/-- Database states reachable from a fresh database by completed
orchestrator operations. -/
inductive Reachable : DbState → Prop where
  | init : Reachable dbInit
  | step {s : DbState} (op : Op) : Reachable s → opFresh s op → Reachable (applyOp s op)

/-- Database states passed through while executing orchestrator operations:
every reachable state, and every intermediate state of an operation run from
a reachable state. -/
inductive ReachableMid : DbState → Prop where
  | base {s : DbState} : Reachable s → ReachableMid s
  | mid {s t : DbState} (op : Op) : Reachable s → opFresh s op →
      t ∈ opTrace s op → ReachableMid t

/-! ## Page model (shared by validator, expander and shooter)

A rendered page is a finite list of DOM elements.  For each element we track
which Playwright selectors it matches, whether `is_visible()` holds, its
`bounding_box()` (absent for detached/hidden elements) and its
`text_content()`.  `page.locator(sel)` filters by selector match. -/

/-- A bounding box / clip rectangle, in CSS pixels. -/
structure BBox where
  x : Int
  y : Int
  width : Int
  height : Int
deriving DecidableEq, Repr

/-- A DOM element as observed through the Playwright API. -/
structure Element where
  selectors : List String
  visible : Bool
  bbox : Option BBox
  text : Option String
deriving DecidableEq, Repr

/-- A rendered page. -/
structure Page where
  elements : List Element
deriving DecidableEq, Repr

/-- `page.locator(selector)`: the elements matching a selector, in DOM
order. -/
def locator (p : Page) (sel : String) : List Element :=
  p.elements.filter (fun e => e.selectors.contains sel)

/-! ## Validator (`src/amboss/validator.py`) -/

/-- The `hidden_selectors` list of `ContentValidator._check_hidden_sections`. -/
def validator_hidden_selectors : List String :=
  ["[data-e2e-test-id='section-content-is-hidden']",
   "text='Weiterlesen'",
   "text='Read more'",
   "text='Mehr anzeigen'",
   "text='Show more'"]

/-- `ContentValidator._check_hidden_sections`: for each hidden-content
selector count the matching elements and, when there are any, add the number
of those that are actually visible. -/
def check_hidden_sections (p : Page) : Nat :=
  validator_hidden_selectors.foldl (fun total_hidden sel =>
    let elements := locator p sel
    let count := elements.length
    if count > 0 then
      total_hidden + (elements.filter (fun e => e.visible)).length
    else
      total_hidden) 0

/-- The dictionary returned by `ContentValidator.validate_page`. -/
structure ValidationResults where
  expansion_valid : Bool
  hidden_sections_count : Nat
  validation_passed : Bool
  errors : List String
deriving DecidableEq, Repr

/-- `ContentValidator.validate_page`: checks hidden sections only;
`expansion_valid` and `validation_passed` both hold exactly when the hidden
count is zero, and an error message is appended when it is positive. -/
def validate_page (p : Page) : ValidationResults :=
  let hidden_count := check_hidden_sections p
  let expansion_valid := hidden_count == 0
  let errors := if hidden_count > 0 then
      ["Found " ++ toString hidden_count ++ " hidden sections"]
    else []
  { expansion_valid := expansion_valid,
    hidden_sections_count := hidden_count,
    validation_passed := expansion_valid,
    errors := errors }

/-! ## Expander (`src/amboss/expander.py`)

The DOM effect of one pass of the expansion strategies
(`_handle_cookie_consent`, `_click_expansion_buttons`,
`_js_expansion_fallback`, `_wait_for_dynamic_content`) is site-specific
browser interaction; it is abstracted as a page transformation `effects`.
The verification step `_verify_expansion` and the tenacity retry wrapper
`@retry(stop=stop_after_attempt(4))` around `fully_expand` are embedded
faithfully. -/

/-- The `hidden_selectors` list of `ContentExpander._verify_expansion`. -/
def expander_hidden_selectors : List String :=
  ["[data-e2e-test-id='section-content-is-hidden']",
   "text='Weiterlesen'",
   "text='Read more'"]

/-- The `total_hidden` count of `ContentExpander._verify_expansion`: per
selector, the number of matching elements that are actually visible. -/
def verify_total_hidden (p : Page) : Nat :=
  expander_hidden_selectors.foldl (fun total_hidden sel =>
    let elements := locator p sel
    let count := elements.length
    if count > 0 then
      let visible_count := (elements.filter (fun e => e.visible)).length
      if visible_count > 0 then total_hidden + visible_count else total_hidden
    else
      total_hidden) 0

/-- The message of the `ExpansionFailure` raised by `_verify_expansion`. -/
def expansionFailureMsg (total_hidden : Nat) : String :=
  toString total_hidden ++ " sections still hidden after expansion"

/-- The body of `ContentExpander.fully_expand` under the tenacity retry
decorator, with `attempts` tries remaining: run the strategy pass, then
`_verify_expansion`; on `ExpansionFailure` retry (the page keeps the effects
of the failed pass) until the attempts are exhausted, then let the failure
propagate. -/
def fully_expand_go (effects : Page → Page) : Nat → Page → Except String Page
  | 0, _ => .error "RetryError"
  | n + 1, p =>
    let p1 := effects p
    let hidden := verify_total_hidden p1
    if hidden = 0 then
      .ok p1
    else if n = 0 then
      .error (expansionFailureMsg hidden)
    else
      fully_expand_go effects n p1

/-- `ContentExpander.fully_expand` with its
`@retry(stop=stop_after_attempt(4))` decorator: up to 4 attempts of the full
strategy sequence. -/
def fully_expand (effects : Page → Page) (p : Page) : Except String Page :=
  fully_expand_go effects 4 p

/-! ## Shooter (`src/amboss/shooter.py`)

Only the returned `(filename, index, section_title)` triples are modelled;
the pixels written to disk are external image I/O. -/

/-- The `section_selectors` list of `ScreenshotShooter.__init__`. -/
def section_selectors : List String :=
  ["h1", "h2", "h3", "h4", "h5", "h6",
   "[data-testid='section-header']",
   ".section-header",
   ".article-section"]

/-- `ScreenshotShooter._find_content_area`: always returns the fixed
hardcoded clip for the AMBOSS article column. -/
def find_content_area (_p : Page) : Option BBox :=
  some ⟨380, 56, 848, 1200⟩

/-- The collection phase of `_get_section_headers`: visible elements
matching a section selector whose bounding box lies horizontally within the
content area. -/
def header_in_area (content_area : BBox) (e : Element) : Bool :=
  e.visible && (match e.bbox with
    | some b =>
      decide (content_area.x ≤ b.x) &&
      decide (b.x + b.width ≤ content_area.x + content_area.width)
    | none => false)

/-- `ScreenshotShooter._get_section_headers`: collect qualifying headers
per selector, pair each with its bounding-box `y`, sort ascending by `y`,
and return the elements. -/
def get_section_headers (p : Page) (content_area : BBox) : List Element :=
  let headers := section_selectors.foldl
    (fun acc sel => acc ++ (locator p sel).filter (header_in_area content_area)) []
  let keyed := headers.filterMap (fun h => h.bbox.map (fun b => (b.y, h)))
  (keyed.mergeSort (fun a b => a.1 ≤ b.1)).map (·.2)

/-- Zero-padded index as produced by Python's `f"{index:03d}"`. -/
def pad3 (n : Nat) : String :=
  if n < 10 then "00" ++ toString n
  else if n < 100 then "0" ++ toString n
  else toString n

/-- The character class `[<>:"/\\|?*]` of `_sanitize_filename`. -/
def invalid_filename_char (c : Char) : Bool :=
  c ∈ ['<', '>', ':', '"', '/', '\\', '|', '?', '*']

/-- Python `str.strip(' .')`: remove leading and trailing spaces and dots. -/
def strip_space_dot (s : String) : String :=
  let dropped := s.toList.dropWhile (fun c => c = ' ' ∨ c = '.')
  String.mk ((dropped.reverse.dropWhile (fun c => c = ' ' ∨ c = '.')).reverse)

/-- Python `str.strip()`: remove leading and trailing whitespace. -/
def strip_whitespace (s : String) : String :=
  let dropped := s.toList.dropWhile (fun c => c.isWhitespace)
  String.mk ((dropped.reverse.dropWhile (fun c => c.isWhitespace)).reverse)

/-- `ScreenshotShooter._sanitize_filename`: replace invalid characters with
underscores, truncate to 50 characters, strip spaces and dots, default
`"section"`. -/
def sanitize_filename (text : String) : String :=
  let sanitized := String.mk (text.toList.map (fun c =>
    if invalid_filename_char c then '_' else c))
  let limited := String.mk (sanitized.toList.take 50)
  let stripped := strip_space_dot limited
  if stripped = "" then "section" else stripped

/-- The section title computed by `_capture_section`: the sanitized stripped
header text when `text_content()` is truthy, otherwise
`f"section_{index:03d}"`. -/
def sec_title (header : Element) (index : Nat) : String :=
  match header.text with
  | some t =>
    if t ≠ "" then sanitize_filename (strip_whitespace t)
    else "section_" ++ pad3 index
  | none => "section_" ++ pad3 index

/-- The screenshot filename `f"sec_{index:03d}_{header_text}.png"` of
`_capture_section`. -/
def sec_filename (header : Element) (index : Nat) : String :=
  "sec_" ++ pad3 index ++ "_" ++ sec_title header index ++ ".png"

/-- `_calculate_section_clip_with_content_area`. -/
def calculate_section_clip_with_content_area (header_bbox content_area : BBox)
    (index : Nat) : BBox :=
  let y_start := max content_area.y (header_bbox.y - 50)
  let height := if index = 0 then min 1200 content_area.height
    else min 1000 content_area.height
  let max_y := content_area.y + content_area.height
  let y_end := min (y_start + height) max_y
  ⟨content_area.x, y_start, content_area.width, y_end - y_start⟩

/-- The `while y_start < content_area["y"] + total_height:` chunk loop of
`ScreenshotShooter._capture_content_area`. -/
def capture_chunks (content_area : BBox) (slug : String) (y_start : Int)
    (chunk_index : Nat) : List (String × Nat × String) :=
  if h : y_start < content_area.y + content_area.height then
    let chunk_end := min (y_start + 1000) (content_area.y + content_area.height)
    ("content_chunk_" ++ pad3 chunk_index ++ "_" ++ slug ++ ".png",
      chunk_index, "content_chunk_" ++ toString chunk_index)
      :: capture_chunks content_area slug chunk_end (chunk_index + 1)
  else
    []
termination_by (content_area.y + content_area.height - y_start).toNat
decreasing_by
  omega

/-- `ScreenshotShooter._capture_content_area` (chunked fallback). -/
def capture_content_area (content_area : BBox) (slug : String) :
    List (String × Nat × String) :=
  capture_chunks content_area slug content_area.y 0

/-- `ScreenshotShooter._capture_full_page` (full-page fallback). -/
def capture_full_page (slug : String) : List (String × Nat × String) :=
  [("full_page_" ++ slug ++ ".png", 0, "full_page")]

/-- `ScreenshotShooter.shoot_sections` with the content-area lookup result
as a parameter: full-page fallback when no content area, chunked fallback
when no section headers, otherwise one cropped capture per header with the
enumeration index as sequence index. -/
def shoot_sections_with (content_area : Option BBox) (p : Page) (slug : String) :
    List (String × Nat × String) :=
  match content_area with
  | none => capture_full_page slug
  | some ca =>
    let headers := get_section_headers p ca
    if headers.isEmpty then
      capture_content_area ca slug
    else
      headers.enum.map (fun ih => (sec_filename ih.2 ih.1, ih.1, sec_title ih.2 ih.1))

/-- `ScreenshotShooter.shoot_sections`. -/
def shoot_sections (p : Page) (slug : String) : List (String × Nat × String) :=
  shoot_sections_with (find_content_area p) p slug

/-! ## Derived and specification-side definitions -/

/-- The slugs of the `urls` table, in insertion order. -/
def slugs (s : DbState) : List String := s.urls.map (·.slug)

/-- The number of visible elements matching the validator's hidden-content
selectors, counted selector by selector. -/
def visible_hidden_count (p : Page) : Nat :=
  (validator_hidden_selectors.map
    (fun sel => ((locator p sel).filter (fun e => e.visible)).length)).sum

/-- Number of runs that have been started but not finished. -/
def numActive (s : DbState) : Nat :=
  (s.runs.filter (fun r => !r.finished)).length

/-- Number of active (started but unfinished) runs for one slug. -/
def numActiveFor (s : DbState) (slug : String) : Nat :=
  (s.runs.filter (fun r => r.slug == slug && !r.finished)).length

/-- Every run row has its `finished` timestamp set. -/
def allFinished (s : DbState) : Prop :=
  ∀ r ∈ s.runs, r.finished = true

/-- Every image row's `(run_id, slug)` pair refers to an existing run row. -/
def imagesHaveRuns (s : DbState) : Prop :=
  ∀ i ∈ s.images, ∃ r ∈ s.runs, r.run_id = i.run_id ∧ r.slug = i.slug

/-- The forward lifecycle edges of the URL status machine. -/
def statusEdge (a b : Status) : Prop :=
  (a = .pending ∧ b = .processing) ∨
    (a = .processing ∧ (b = .done ∨ b = .failed_expansion ∨ b = .failed_validation))

/-- One database statement's effect on URL statuses: for every slug, the
status is unchanged, or a new URL appears as pending, or the status takes a
forward edge, or — only when `allowReset` — a failed status resets to
pending. -/
def urlStep (allowReset : Bool) (s t : DbState) : Prop :=
  ∀ slug, getStatus t slug = getStatus s slug ∨
    (getStatus s slug = none ∧ getStatus t slug = some .pending) ∨
    (∃ a b, getStatus s slug = some a ∧ getStatus t slug = some b ∧
      (statusEdge a b ∨ (allowReset = true ∧ a.isFailed = true ∧ b = .pending)))

/-- Whether an operation may reset failed URLs back to pending (only the
retry workflow does). -/
def Op.allowsReset : Op → Bool
  | .retryFailed _ _ => true
  | _ => false

/-- The pending URL records occupy a final segment of the `urls` table in
insertion order. -/
def pendingSplit (s : DbState) : Prop :=
  ∃ l1 l2, s.urls = l1 ++ l2 ∧ (∀ u ∈ l1, u.status ≠ .pending) ∧
    (∀ u ∈ l2, u.status = .pending)

/-- No visible element matching the expander's hidden-content selectors
remains on the page. -/
def expander_clean (p : Page) : Prop :=
  ∀ e ∈ p.elements, e.visible = true →
    ∀ sel ∈ expander_hidden_selectors, e.selectors.contains sel = false

instance (p : Page) : Decidable (expander_clean p) := by
  unfold expander_clean
  infer_instance

/-! ## Basic lemmas about the database operations -/

@[simp]
theorem update_url_status_runs (s : DbState) (slug : String) (st : Status)
    (e : Option String) : (update_url_status s slug st e).runs = s.runs := rfl

@[simp]
theorem update_url_status_images (s : DbState) (slug : String) (st : Status)
    (e : Option String) : (update_url_status s slug st e).images = s.images := rfl

@[simp]
theorem start_run_urls (s : DbState) (rid slug : String) :
    (start_run s rid slug).1.urls = s.urls := by
  unfold start_run; split <;> rfl

@[simp]
theorem start_run_images (s : DbState) (rid slug : String) :
    (start_run s rid slug).1.images = s.images := by
  unfold start_run; split <;> rfl

@[simp]
theorem finish_run_urls (s : DbState) (rid slug : String) (ok : Bool)
    (e : Option String) : (finish_run s rid slug ok e).urls = s.urls := rfl

@[simp]
theorem finish_run_images (s : DbState) (rid slug : String) (ok : Bool)
    (e : Option String) : (finish_run s rid slug ok e).images = s.images := rfl

@[simp]
theorem add_image_urls (s : DbState) (rid slug fn : String) (idx : Nat)
    (title : String) : (add_image s rid slug fn idx title).1.urls = s.urls := by
  unfold add_image; split <;> rfl

@[simp]
theorem add_image_runs (s : DbState) (rid slug fn : String) (idx : Nat)
    (title : String) : (add_image s rid slug fn idx title).1.runs = s.runs := by
  unfold add_image; split <;> rfl

theorem save_results_urls (rid slug : String) :
    ∀ (shots : List Shot) (s : DbState), (save_results s rid slug shots).1.urls = s.urls := by
  intro shots
  induction shots with
  | nil => intro s; rfl
  | cons shot rest ih =>
    intro s
    simp only [save_results]
    split <;> simp [ih]

theorem save_results_runs (rid slug : String) :
    ∀ (shots : List Shot) (s : DbState), (save_results s rid slug shots).1.runs = s.runs := by
  intro shots
  induction shots with
  | nil => intro s; rfl
  | cons shot rest ih =>
    intro s
    simp only [save_results]
    split <;> simp [ih]

theorem save_results_trace_urls (rid slug : String) :
    ∀ (shots : List Shot) (s : DbState), ∀ t ∈ (save_results s rid slug shots).2.2,
      t.urls = s.urls := by
  intro shots
  induction shots with
  | nil => intro s t ht; simp [save_results] at ht
  | cons shot rest ih =>
    intro s t ht
    simp only [save_results] at ht
    split at ht
    · rcases List.mem_cons.mp ht with h | h
      · subst h; simp
      · have := ih _ t h; simp at this; simpa using this
    · simp at ht; subst ht; simp

theorem save_results_trace_runs (rid slug : String) :
    ∀ (shots : List Shot) (s : DbState), ∀ t ∈ (save_results s rid slug shots).2.2,
      t.runs = s.runs := by
  intro shots
  induction shots with
  | nil => intro s t ht; simp [save_results] at ht
  | cons shot rest ih =>
    intro s t ht
    simp only [save_results] at ht
    split at ht
    · rcases List.mem_cons.mp ht with h | h
      · subst h; simp
      · have := ih _ t h; simp at this; simpa using this
    · simp at ht; subst ht; simp

theorem process_slug_urls (env : Env) (s : DbState) (slug rid : String) :
    (process_slug env s slug rid).1.urls = s.urls := by
  unfold process_slug
  cases env slug <;> simp [save_results_urls]
  split <;> simp [save_results_urls]

theorem process_slug_runs (env : Env) (s : DbState) (slug rid : String) :
    (process_slug env s slug rid).1.runs = s.runs := by
  unfold process_slug
  cases env slug <;> simp [save_results_runs]
  split <;> simp [save_results_runs]

theorem process_slug_trace_urls (env : Env) (s : DbState) (slug rid : String) :
    ∀ t ∈ (process_slug env s slug rid).2.2.2, t.urls = s.urls := by
  unfold process_slug
  cases env slug <;> intro t ht <;> simp at ht
  case success shots =>
    revert ht
    split <;> intro ht <;> simp at ht <;> exact save_results_trace_urls rid slug shots s t ht

theorem process_slug_trace_runs (env : Env) (s : DbState) (slug rid : String) :
    ∀ t ∈ (process_slug env s slug rid).2.2.2, t.runs = s.runs := by
  unfold process_slug
  cases env slug <;> intro t ht <;> simp at ht
  case success shots =>
    revert ht
    split <;> intro ht <;> simp at ht <;> exact save_results_trace_runs rid slug shots s t ht

theorem updateRec_slug (st : Status) (e : Option String) (u : UrlRec) :
    (updateRec st e u).slug = u.slug := by
  unfold updateRec; split <;> rfl

theorem updateRec_status (st : Status) (e : Option String) (u : UrlRec) :
    (updateRec st e u).status = st := by
  unfold updateRec; split <;> rfl

theorem getStatus_eq_of_urls {s t : DbState} (h : s.urls = t.urls) (slug : String) :
    getStatus s slug = getStatus t slug := by
  unfold getStatus; rw [h]

theorem slugs_eq_of_urls {s t : DbState} (h : s.urls = t.urls) : slugs s = slugs t := by
  unfold slugs; rw [h]

theorem slugs_update_url_status (s : DbState) (slug : String) (st : Status)
    (e : Option String) : slugs (update_url_status s slug st e) = slugs s := by
  unfold slugs update_url_status
  simp only [List.map_map]
  apply List.map_congr_left
  intro u _
  by_cases h : u.slug = slug <;> simp [h, updateRec_slug]

theorem find?_map_update (slug slug' : String) (st : Status) (e : Option String) :
    ∀ l : List UrlRec,
      (l.map (fun u => if u.slug == slug then updateRec st e u else u)).find?
          (fun u => u.slug == slug') =
        if slug' = slug then (l.find? (fun u => u.slug == slug)).map (updateRec st e)
        else l.find? (fun u => u.slug == slug') := by
  intro l
  induction l with
  | nil => split <;> rfl
  | cons u l ih =>
    simp only [List.map_cons]
    by_cases hc : (u.slug == slug) = true
    · have hc' : u.slug = slug := by simpa using hc
      by_cases hq : (u.slug == slug') = true
      · have h1 : slug' = slug := by
          have hq' : u.slug = slug' := by simpa using hq
          rw [← hq', hc']
        have hmq : ((updateRec st e u).slug == slug') = true := by
          rw [updateRec_slug]; exact hq
        simp [List.find?_cons, hc, hmq, hq, if_pos h1]
      · have hss : slug' ≠ slug := by
          intro h; apply hq; simp [hc', h]
        have hqf : (u.slug == slug') = false := by simpa using hq
        have hmqf : ((updateRec st e u).slug == slug') = false := by
          rw [updateRec_slug]; exact hqf
        simp only [if_pos hc, List.find?_cons, hmqf, hqf, if_neg hss]
        have h2 := ih; rw [if_neg hss] at h2; exact h2
    · have hcf : (u.slug == slug) = false := by simpa using hc
      by_cases hq : (u.slug == slug') = true
      · have hss : slug' ≠ slug := by
          intro h; subst h; exact hc hq
        simp [List.find?_cons, hcf, hq, if_neg hss]
      · have hqf : (u.slug == slug') = false := by simpa using hq
        rw [if_neg hc]
        by_cases hss : slug' = slug
        · have h2 := ih; rw [if_pos hss] at h2
          simp only [if_pos hss, List.find?_cons, hqf, hcf]
          exact h2
        · have h2 := ih; rw [if_neg hss] at h2
          simp only [if_neg hss, List.find?_cons, hqf]
          exact h2

/-- How `update_url_status` changes the status seen through `getStatus`. -/
theorem getStatus_update_url_status (s : DbState) (slug : String) (st : Status)
    (e : Option String) (slug' : String) :
    getStatus (update_url_status s slug st e) slug' =
      if slug' = slug then (getStatus s slug).map (fun _ => st)
      else getStatus s slug' := by
  unfold getStatus update_url_status
  simp only
  rw [find?_map_update]
  split
  · cases s.urls.find? (fun u => u.slug == slug) <;> simp [updateRec_status]
  · rfl

theorem getStatus_update_self (s : DbState) (slug : String) (st : Status)
    (e : Option String) :
    getStatus (update_url_status s slug st e) slug =
      (getStatus s slug).map (fun _ => st) := by
  rw [getStatus_update_url_status]; simp

theorem getStatus_update_other (s : DbState) (slug : String) (st : Status)
    (e : Option String) {slug' : String} (h : slug' ≠ slug) :
    getStatus (update_url_status s slug st e) slug' = getStatus s slug' := by
  rw [getStatus_update_url_status]; simp [h]

@[simp]
theorem getStatus_finish_run (s : DbState) (rid slug : String) (ok : Bool)
    (e : Option String) (slug' : String) :
    getStatus (finish_run s rid slug ok e) slug' = getStatus s slug' := rfl

@[simp]
theorem getStatus_start_run (s : DbState) (rid slug slug' : String) :
    getStatus (start_run s rid slug).1 slug' = getStatus s slug' := by
  unfold getStatus
  rw [start_run_urls]

@[simp]
theorem getStatus_process_slug (env : Env) (s : DbState) (slug rid slug' : String) :
    getStatus (process_slug env s slug rid).1 slug' = getStatus s slug' :=
  getStatus_eq_of_urls (process_slug_urls env s slug rid) slug'

theorem process_one_getStatus_other (env : Env) (rid : String) (s : DbState)
    (slug url : String) {slug' : String} (h : slug' ≠ slug) :
    getStatus (process_one env rid s slug url).1 slug' = getStatus s slug' := by
  unfold process_one
  simp only
  split <;>
    rw [getStatus_finish_run, getStatus_update_other _ _ _ _ h,
      getStatus_process_slug, getStatus_start_run,
      getStatus_update_other _ _ _ _ h]

theorem process_one_getStatus_self_done (env : Env) (rid : String) (s : DbState)
    (slug url : String) (h : (process_one env rid s slug url).2.1 = true) :
    getStatus (process_one env rid s slug url).1 slug =
      (getStatus s slug).map (fun _ => Status.done) := by
  unfold process_one at h ⊢
  simp only at h ⊢
  split
  · rw [getStatus_finish_run, getStatus_update_self,
      getStatus_process_slug, getStatus_start_run, getStatus_update_self]
    cases getStatus s slug <;> rfl
  · split at h <;> simp_all

theorem process_one_getStatus_self_failed (env : Env) (rid : String) (s : DbState)
    (slug url : String) (h : (process_one env rid s slug url).2.1 = false) :
    getStatus (process_one env rid s slug url).1 slug =
      (getStatus s slug).map (fun _ => Status.failed_expansion) := by
  unfold process_one at h ⊢
  simp only at h ⊢
  split
  · split at h <;> simp_all
  · rw [getStatus_finish_run, getStatus_update_self,
      getStatus_process_slug, getStatus_start_run, getStatus_update_self]
    cases getStatus s slug <;> rfl

theorem slugs_start_run (s : DbState) (rid slug : String) :
    slugs (start_run s rid slug).1 = slugs s :=
  slugs_eq_of_urls (start_run_urls s rid slug)

theorem slugs_finish_run (s : DbState) (rid slug : String) (ok : Bool)
    (e : Option String) : slugs (finish_run s rid slug ok e) = slugs s := rfl

theorem slugs_process_slug (env : Env) (s : DbState) (slug rid : String) :
    slugs (process_slug env s slug rid).1 = slugs s :=
  slugs_eq_of_urls (process_slug_urls env s slug rid)

theorem slugs_process_one (env : Env) (rid : String) (s : DbState) (slug url : String) :
    slugs (process_one env rid s slug url).1 = slugs s := by
  unfold process_one
  simp only
  split <;>
    rw [slugs_finish_run, slugs_update_url_status, slugs_process_slug,
      slugs_start_run, slugs_update_url_status]

theorem slugs_process_list (env : Env) (rid : String) :
    ∀ (l : List (String × String)) (s : DbState),
      slugs (process_list env rid s l).1 = slugs s := by
  intro l
  induction l with
  | nil => intro s; rfl
  | cons p rest ih =>
    intro s
    simp only [process_list]
    rw [ih, slugs_process_one]

theorem slugs_process_pending_urls (env : Env) (rid : String) (limit : Option Nat)
    (s : DbState) : slugs (process_pending_urls env rid limit s).1 = slugs s := by
  unfold process_pending_urls
  simp only
  split
  · rfl
  · exact slugs_process_list env rid _ s

theorem slugs_reset_failed :
    ∀ (l : List (String × String × Option String)) (s : DbState),
      slugs (reset_failed s l).1 = slugs s := by
  intro l
  induction l with
  | nil => intro s; rfl
  | cons p rest ih =>
    intro s
    simp only [reset_failed]
    rw [ih, slugs_update_url_status]

theorem slugs_retry_failed_urls (env : Env) (rid : String) (s : DbState) :
    slugs (retry_failed_urls env rid s).1 = slugs s := by
  unfold retry_failed_urls
  simp only
  split
  · rfl
  · rw [slugs_process_pending_urls, slugs_reset_failed]

theorem slugs_add_url (s : DbState) (slug url : String) :
    slugs (add_url s slug url).1 =
      if s.urls.any (fun u => u.slug == slug) then slugs s else slugs s ++ [slug] := by
  unfold add_url slugs
  split <;> simp_all

theorem nodup_slugs_applyOp (op : Op) (s : DbState) (h : (slugs s).Nodup) :
    (slugs (applyOp s op)).Nodup := by
  cases op with
  | addUrl slug url =>
    simp only [applyOp]
    rw [slugs_add_url]
    split
    · exact h
    · rename_i hany
      have hmem : slug ∉ slugs s := by
        intro hmemm
        obtain ⟨u, hu, hslug⟩ := List.mem_map.mp hmemm
        have hane : s.urls.any (fun u => u.slug == slug) = true :=
          List.any_eq_true.mpr ⟨u, hu, by simpa using hslug⟩
        exact hany hane
      simp [List.nodup_append, h, hmem]
  | processPending env rid limit =>
    simp only [applyOp]
    rw [slugs_process_pending_urls]
    exact h
  | retryFailed env rid =>
    simp only [applyOp]
    rw [slugs_retry_failed_urls]
    exact h

theorem nodup_slugs_of_reachable {s : DbState} (hs : Reachable s) : (slugs s).Nodup := by
  induction hs with
  | init => simp [slugs, dbInit]
  | step op hr hfresh ih => exact nodup_slugs_applyOp op _ ih

/-! ## Validator lemmas -/

theorem hidden_count_step (a : Nat) (l : List Element) :
    (if l.length > 0 then a + (l.filter (fun e => e.visible)).length else a) =
      a + (l.filter (fun e => e.visible)).length := by
  split
  · rfl
  · have h0 : (l.filter (fun e => e.visible)).length = 0 :=
      Nat.le_zero.mp (le_trans (List.length_filter_le _ _) (by omega))
    omega

theorem check_hidden_sections_eq (p : Page) :
    check_hidden_sections p = visible_hidden_count p := by
  simp only [check_hidden_sections, validator_hidden_selectors, List.foldl_cons,
    List.foldl_nil, visible_hidden_count, List.map_cons, List.map_nil,
    List.sum_cons, List.sum_nil]
  simp only [hidden_count_step]
  omega

/-! ## Expander lemmas -/

theorem verify_total_hidden_step (a : Nat) (l : List Element) :
    (if l.length > 0 then
        (if (l.filter (fun e => e.visible)).length > 0 then
          a + (l.filter (fun e => e.visible)).length
        else a)
      else a) = a + (l.filter (fun e => e.visible)).length := by
  split
  · split
    · rfl
    · omega
  · have h0 : (l.filter (fun e => e.visible)).length = 0 :=
      Nat.le_zero.mp (le_trans (List.length_filter_le _ _) (by omega))
    omega

theorem verify_total_hidden_eq_sum (p : Page) :
    verify_total_hidden p =
      (expander_hidden_selectors.map
        (fun sel => ((locator p sel).filter (fun e => e.visible)).length)).sum := by
  simp only [verify_total_hidden, expander_hidden_selectors, List.foldl_cons,
    List.foldl_nil, List.map_cons, List.map_nil, List.sum_cons, List.sum_nil]
  simp only [verify_total_hidden_step]
  omega

theorem verify_total_hidden_eq_zero_iff (p : Page) :
    verify_total_hidden p = 0 ↔ expander_clean p := by
  rw [verify_total_hidden_eq_sum]
  rw [List.sum_eq_zero_iff]
  constructor
  · intro h e he hv sel hsel
    by_contra hc
    have hc' : e.selectors.contains sel = true := by
      cases hcc : e.selectors.contains sel
      · exact absurd hcc hc
      · rfl
    have hmem : e ∈ (locator p sel).filter (fun e => e.visible) := by
      rw [List.mem_filter]
      exact ⟨by rw [locator, List.mem_filter]; exact ⟨he, hc'⟩, hv⟩
    have h0 : ((locator p sel).filter (fun e => e.visible)).length = 0 :=
      h _ (List.mem_map.mpr ⟨sel, hsel, rfl⟩)
    rw [List.length_eq_zero] at h0
    rw [h0] at hmem
    exact absurd hmem (List.not_mem_nil e)
  · intro h x hx
    obtain ⟨sel, hsel, rfl⟩ := List.mem_map.mp hx
    rw [List.length_eq_zero, List.eq_nil_iff_forall_not_mem]
    intro e hmem
    rw [List.mem_filter] at hmem
    obtain ⟨hloc, hv⟩ := hmem
    rw [locator, List.mem_filter] at hloc
    obtain ⟨he, hc⟩ := hloc
    have := h e he hv sel hsel
    rw [this] at hc
    exact Bool.false_ne_true hc

theorem fully_expand_go_clean (effects : Page → Page) :
    ∀ (n : Nat) (p q : Page), fully_expand_go effects n p = .ok q →
      verify_total_hidden q = 0 := by
  intro n
  induction n with
  | zero => intro p q h; exact absurd h (by simp [fully_expand_go])
  | succ n ih =>
    intro p q h
    simp only [fully_expand_go] at h
    split at h
    · rename_i hz
      cases h
      exact hz
    · split at h
      · exact absurd h (by simp)
      · exact ih _ _ h

theorem fully_expand_go_ok_iff (effects : Page → Page) :
    ∀ (n : Nat) (p : Page), 0 < n →
      ((∃ q, fully_expand_go effects n p = .ok q) ↔
        ∃ k, 1 ≤ k ∧ k ≤ n ∧ verify_total_hidden (effects^[k] p) = 0) := by
  intro n
  induction n with
  | zero => intro p h; omega
  | succ n ih =>
    intro p _
    simp only [fully_expand_go]
    by_cases hz : verify_total_hidden (effects p) = 0
    · rw [if_pos hz]
      constructor
      · intro _
        exact ⟨1, le_refl 1, by omega, by simpa using hz⟩
      · intro _
        exact ⟨effects p, rfl⟩
    · rw [if_neg hz]
      by_cases hn : n = 0
      · subst hn
        simp only [if_pos rfl]
        constructor
        · intro ⟨q, hq⟩
          exact absurd hq (by simp)
        · intro ⟨k, hk1, hk2, hkc⟩
          have : k = 1 := by omega
          subst this
          simp only [Function.iterate_one] at hkc
          exact absurd hkc hz
      · rw [if_neg hn]
        rw [ih (effects p) (by omega)]
        constructor
        · intro ⟨k, hk1, hk2, hkc⟩
          refine ⟨k + 1, by omega, by omega, ?_⟩
          rwa [Function.iterate_succ_apply]
        · intro ⟨k, hk1, hk2, hkc⟩
          have hk1' : 2 ≤ k := by
            by_contra hlt
            have hk : k = 1 := by omega
            subst hk
            simp only [Function.iterate_one] at hkc
            exact hz hkc
          refine ⟨k - 1, by omega, by omega, ?_⟩
          have hks : k - 1 + 1 = k := by omega
          rw [← hks] at hkc
          rwa [Function.iterate_succ_apply] at hkc

theorem except_error_iff_not_ok {α β : Type} (x : Except α β) :
    (∃ e, x = .error e) ↔ ¬ ∃ q, x = .ok q := by
  cases x <;> simp

/-! ## Shooter lemmas -/

theorem filterMap_eq_map_of_forall {α β : Type} {l : List α} {g : α → Option β}
    {f : α → β} (h : ∀ x ∈ l, g x = some (f x)) : l.filterMap g = l.map f := by
  induction l with
  | nil => rfl
  | cons a l ih =>
    rw [List.filterMap_cons, h a (by simp), List.map_cons,
      ih (fun x hx => h x (by simp [hx]))]

theorem get_section_headers_sorted (p : Page) (ca : BBox) :
    List.Sorted (· ≤ ·)
      ((get_section_headers p ca).filterMap (fun h => h.bbox.map (·.y))) := by
  unfold get_section_headers
  rw [List.filterMap_map]
  have hpair : ∀ x ∈ (((section_selectors.foldl
      (fun acc sel => acc ++ (locator p sel).filter (header_in_area ca)) []).filterMap
        (fun h => h.bbox.map (fun b => (b.y, h)))).mergeSort
          (fun a b => a.1 ≤ b.1)),
      ((fun h : Element => h.bbox.map (·.y)) ∘ (·.2)) x = some x.1 := by
    intro x hx
    rw [List.mem_mergeSort] at hx
    obtain ⟨h, _, hsome⟩ := List.mem_filterMap.mp hx
    cases hb : h.bbox with
    | none => rw [hb] at hsome; simp at hsome
    | some b =>
      rw [hb] at hsome
      simp only [Option.map_some'] at hsome
      cases hsome
      simp [hb]
  rw [filterMap_eq_map_of_forall hpair]
  have hsorted := @List.sorted_mergeSort (Int × Element)
    (fun a b => decide (a.1 ≤ b.1))
    (fun a b c h1 h2 => by
      simp only [decide_eq_true_eq] at h1 h2 ⊢
      omega)
    (fun a b => by
      simp only [Bool.or_eq_true, decide_eq_true_eq]
      omega)
    ((section_selectors.foldl
      (fun acc sel => acc ++ (locator p sel).filter (header_in_area ca)) []).filterMap
        (fun h => h.bbox.map (fun b => (b.y, h))))
  exact List.Pairwise.map (·.1)
    (fun a b hab => by simpa using hab) hsorted

/-! ## Query lemmas -/

theorem mem_get_pending_urls_none (s : DbState) (x : String × String) :
    x ∈ get_pending_urls s none ↔
      ∃ u ∈ s.urls, u.status = .pending ∧ x = (u.slug, u.url) := by
  unfold get_pending_urls
  simp only [List.mem_map, List.mem_filter, beq_iff_eq]
  constructor
  · intro ⟨u, ⟨hu, hst⟩, hx⟩
    exact ⟨u, hu, hst, hx.symm⟩
  · intro ⟨u, hu, hst, hx⟩
    exact ⟨u, ⟨hu, hst⟩, hx.symm⟩

theorem mem_get_failed_urls (s : DbState) (x : String × String × Option String) :
    x ∈ get_failed_urls s ↔
      ∃ u ∈ s.urls, u.status.isFailed = true ∧ x = (u.slug, u.url, u.last_error) := by
  unfold get_failed_urls
  simp only [List.mem_map, List.mem_filter]
  constructor
  · intro ⟨u, ⟨hu, hst⟩, hx⟩
    exact ⟨u, hu, hst, hx.symm⟩
  · intro ⟨u, hu, hst, hx⟩
    exact ⟨u, ⟨hu, hst⟩, hx.symm⟩

theorem get_pending_urls_take (s : DbState) (n : Nat) (hn : n ≠ 0) :
    get_pending_urls s (some n) = (get_pending_urls s none).take n := by
  unfold get_pending_urls
  simp [hn]

theorem get_pending_urls_subset (s : DbState) (limit : Option Nat) :
    ∀ x ∈ get_pending_urls s limit, x ∈ get_pending_urls s none := by
  intro x hx
  cases limit with
  | none => exact hx
  | some n =>
    by_cases hn : n = 0
    · subst hn
      simpa [get_pending_urls] using hx
    · rw [get_pending_urls_take s n hn] at hx
      exact List.take_subset n _ hx

theorem find?_slug_of_mem_nodup :
    ∀ {l : List UrlRec} {u : UrlRec} {slug : String},
      (l.map (·.slug)).Nodup → u ∈ l → u.slug = slug →
      l.find? (fun v => v.slug == slug) = some u := by
  intro l
  induction l with
  | nil => intro u slug _ hu _; exact absurd hu (List.not_mem_nil u)
  | cons v l ih =>
    intro u slug hnd hu hslug
    rw [List.map_cons, List.nodup_cons] at hnd
    rcases List.mem_cons.mp hu with h | h
    · subst h
      rw [List.find?_cons_of_pos _ (by simp [hslug])]
    · by_cases hv : v.slug = slug
      · exfalso
        apply hnd.1
        rw [hv, ← hslug]
        exact List.mem_map.mpr ⟨u, h, rfl⟩
      · rw [List.find?_cons_of_neg _ (by simp [hv])]
        exact ih hnd.2 h hslug

theorem getStatus_of_mem_nodup {s : DbState} {u : UrlRec} {slug : String}
    (hnd : (slugs s).Nodup) (hu : u ∈ s.urls) (hslug : u.slug = slug) :
    getStatus s slug = some u.status := by
  unfold getStatus
  rw [find?_slug_of_mem_nodup hnd hu hslug]
  rfl

theorem processing_not_queried {s : DbState} {slug : String}
    (hnd : (slugs s).Nodup) (hst : getStatus s slug = some .processing) :
    (∀ limit, slug ∉ (get_pending_urls s limit).map (·.1)) ∧
      slug ∉ (get_failed_urls s).map (·.1) := by
  constructor
  · intro limit hmem
    obtain ⟨x, hx, hfst⟩ := List.mem_map.mp hmem
    have hx0 := get_pending_urls_subset s limit x hx
    obtain ⟨u, hu, hust, hxe⟩ := (mem_get_pending_urls_none s x).mp hx0
    have : getStatus s slug = some u.status :=
      getStatus_of_mem_nodup hnd hu (by rw [hxe] at hfst; exact hfst)
    rw [hst, hust] at this
    exact Status.noConfusion (Option.some.inj this)
  · intro hmem
    obtain ⟨x, hx, hfst⟩ := List.mem_map.mp hmem
    obtain ⟨u, hu, hust, hxe⟩ := (mem_get_failed_urls s x).mp hx
    have hgs : getStatus s slug = some u.status :=
      getStatus_of_mem_nodup hnd hu (by rw [hxe] at hfst; exact hfst)
    rw [hst] at hgs
    have hpu : u.status = .processing := (Option.some.inj hgs).symm
    rw [hpu] at hust
    simp [Status.isFailed] at hust

theorem process_list_getStatus_not_mem (env : Env) (rid : String) :
    ∀ (l : List (String × String)) (s : DbState) {slug' : String},
      slug' ∉ l.map (·.1) →
      getStatus (process_list env rid s l).1 slug' = getStatus s slug' := by
  intro l
  induction l with
  | nil => intro s slug' _; rfl
  | cons p rest ih =>
    intro s slug' h
    obtain ⟨slug, url⟩ := p
    have h' : slug' ≠ slug ∧ slug' ∉ rest.map (·.1) := by
      simp only [List.map_cons, List.mem_cons] at h
      push_neg at h
      exact h
    simp only [process_list]
    rw [ih _ h'.2, process_one_getStatus_other env rid s slug url h'.1]

theorem reset_failed_getStatus_not_mem :
    ∀ (l : List (String × String × Option String)) (s : DbState) {slug' : String},
      slug' ∉ l.map (·.1) →
      getStatus (reset_failed s l).1 slug' = getStatus s slug' := by
  intro l
  induction l with
  | nil => intro s slug' _; rfl
  | cons p rest ih =>
    intro s slug' h
    obtain ⟨slug, url, err⟩ := p
    have h' : slug' ≠ slug ∧ slug' ∉ rest.map (·.1) := by
      simp only [List.map_cons, List.mem_cons] at h
      push_neg at h
      exact h
    simp only [reset_failed]
    rw [ih _ h'.2, getStatus_update_other _ _ _ _ h'.1]

theorem process_pending_getStatus_processing (env : Env) (rid : String)
    (limit : Option Nat) {s : DbState} {slug : String}
    (hnd : (slugs s).Nodup) (hst : getStatus s slug = some .processing) :
    getStatus (process_pending_urls env rid limit s).1 slug = some .processing := by
  unfold process_pending_urls
  simp only
  split
  · exact hst
  · rw [process_list_getStatus_not_mem env rid _ s
      ((processing_not_queried hnd hst).1 limit)]
    exact hst

theorem retry_getStatus_processing (env : Env) (rid : String) {s : DbState}
    {slug : String} (hnd : (slugs s).Nodup)
    (hst : getStatus s slug = some .processing) :
    getStatus (retry_failed_urls env rid s).1 slug = some .processing := by
  unfold retry_failed_urls
  simp only
  split
  · exact hst
  · have h1 : getStatus (reset_failed s (get_failed_urls s)).1 slug = some .processing := by
      rw [reset_failed_getStatus_not_mem _ s
        ((processing_not_queried hnd hst).2)]
      exact hst
    have hnd1 : (slugs (reset_failed s (get_failed_urls s)).1).Nodup := by
      rw [slugs_reset_failed]; exact hnd
    exact process_pending_getStatus_processing env rid _ hnd1 h1

/-- Every intermediate state of a `process_one` attempt started on a pending
URL shows that URL as `processing`, `done` or `failed_expansion`. -/
theorem process_one_trace_status (env : Env) (rid : String) (s : DbState)
    (slug url : String) (h : getStatus s slug = some .pending) :
    ∀ t ∈ (process_one env rid s slug url).2.2,
      getStatus t slug = some .processing ∨ getStatus t slug = some .done ∨
        getStatus t slug = some .failed_expansion := by
  have hs1 : getStatus (update_url_status s slug .processing none) slug =
      some .processing := by
    rw [getStatus_update_self, h]; rfl
  have hs2 : getStatus
      (start_run (update_url_status s slug .processing none) rid slug).1 slug =
      some .processing := by
    rw [getStatus_start_run]; exact hs1
  unfold process_one
  simp only
  split
  · intro t ht
    rcases List.mem_cons.mp ht with rfl | ht
    · exact .inl hs1
    rcases List.mem_cons.mp ht with rfl | ht
    · exact .inl hs2
    rcases List.mem_append.mp ht with ht | ht
    · left
      have hu := process_slug_trace_urls env _ slug rid t ht
      rw [getStatus_eq_of_urls hu, hs2]
    · rcases List.mem_cons.mp ht with rfl | ht
      · right; left
        rw [getStatus_update_self, getStatus_process_slug, hs2]; rfl
      rcases List.mem_cons.mp ht with rfl | ht
      · right; left
        rw [getStatus_finish_run, getStatus_update_self, getStatus_process_slug,
          hs2]; rfl
      · exact absurd ht (List.not_mem_nil t)
  · intro t ht
    rcases List.mem_cons.mp ht with rfl | ht
    · exact .inl hs1
    rcases List.mem_cons.mp ht with rfl | ht
    · exact .inl hs2
    rcases List.mem_append.mp ht with ht | ht
    · left
      have hu := process_slug_trace_urls env _ slug rid t ht
      rw [getStatus_eq_of_urls hu, hs2]
    · rcases List.mem_cons.mp ht with rfl | ht
      · right; right
        rw [getStatus_update_self, getStatus_process_slug, hs2]; rfl
      rcases List.mem_cons.mp ht with rfl | ht
      · right; right
        rw [getStatus_finish_run, getStatus_update_self, getStatus_process_slug,
          hs2]; rfl
      · exact absurd ht (List.not_mem_nil t)

/-! ## Run-tracking lemmas -/

theorem add_url_runs (s : DbState) (slug url : String) :
    (add_url s slug url).1.runs = s.runs := by
  unfold add_url; split <;> rfl

theorem add_url_images (s : DbState) (slug url : String) :
    (add_url s slug url).1.images = s.images := by
  unfold add_url; split <;> rfl

theorem reset_failed_runs :
    ∀ (l : List (String × String × Option String)) (s : DbState),
      (reset_failed s l).1.runs = s.runs := by
  intro l
  induction l with
  | nil => intro s; rfl
  | cons p rest ih => intro s; simp only [reset_failed]; rw [ih]; rfl

theorem reset_failed_images :
    ∀ (l : List (String × String × Option String)) (s : DbState),
      (reset_failed s l).1.images = s.images := by
  intro l
  induction l with
  | nil => intro s; rfl
  | cons p rest ih => intro s; simp only [reset_failed]; rw [ih]; rfl

theorem reset_failed_trace_runs :
    ∀ (l : List (String × String × Option String)) (s : DbState),
      ∀ t ∈ (reset_failed s l).2, t.runs = s.runs := by
  intro l
  induction l with
  | nil => intro s t ht; simp [reset_failed] at ht
  | cons p rest ih =>
    intro s t ht
    simp only [reset_failed] at ht
    rcases List.mem_cons.mp ht with rfl | ht
    · rfl
    · exact ih (update_url_status s p.1 .pending none) t ht

theorem start_run_cases (s : DbState) (rid slug : String) :
    (start_run s rid slug).1 = s ∨
      (start_run s rid slug).1.runs = s.runs ++ [⟨rid, slug, false, none, none⟩] := by
  unfold start_run
  split
  · left; rfl
  · right; rfl

theorem numActive_eq_zero_of_allFinished {s : DbState} (h : allFinished s) :
    numActive s = 0 := by
  unfold numActive
  rw [List.length_eq_zero, List.filter_eq_nil]
  intro r hr
  simp [h r hr]

theorem numActive_congr {s t : DbState} (h : s.runs = t.runs) :
    numActive s = numActive t := by
  unfold numActive; rw [h]

theorem length_filter_and_le (l : List RunRec) (slug : String) :
    (l.filter (fun r => r.slug == slug && !r.finished)).length ≤
      (l.filter (fun r => !r.finished)).length := by
  induction l with
  | nil => simp
  | cons r l ih =>
    simp only [List.filter_cons]
    cases hf : r.finished with
    | true => simpa using ih
    | false =>
      by_cases h2 : (r.slug == slug) = true
      · simpa [h2] using ih
      · have h2' : (r.slug == slug) = false := by simpa using h2
        simp [h2']
        exact le_trans ih (Nat.le_succ _)

theorem numActiveFor_le (s : DbState) (slug : String) :
    numActiveFor s slug ≤ numActive s :=
  length_filter_and_le s.runs slug

theorem numActive_start_run_le {s : DbState} (rid slug : String)
    (h : allFinished s) : numActive (start_run s rid slug).1 ≤ 1 := by
  rcases start_run_cases s rid slug with hc | hc
  · rw [hc, numActive_eq_zero_of_allFinished h]; omega
  · unfold numActive
    rw [hc, List.filter_append]
    have h0 : s.runs.filter (fun r => !r.finished) = [] := by
      rw [List.filter_eq_nil]
      intro r hr
      simp [h r hr]
    rw [h0, List.nil_append]
    exact le_trans (List.length_filter_le _ _) (by simp)

theorem allFinished_finish_run_of (s : DbState) (rid slug : String) (ok : Bool)
    (e : Option String)
    (h : ∀ r ∈ s.runs, r.finished = true ∨ (r.run_id = rid ∧ r.slug = slug)) :
    allFinished (finish_run s rid slug ok e) := by
  intro r' hr'
  unfold finish_run at hr'
  simp only [List.mem_map] at hr'
  obtain ⟨r, hr, rfl⟩ := hr'
  by_cases hm : (r.run_id == rid && r.slug == slug) = true
  · simp [hm]
  · simp only [hm, Bool.false_eq_true, if_false]
    rcases h r hr with hf | ⟨h1, h2⟩
    · exact hf
    · exact absurd (by simp [h1, h2]) hm

theorem process_one_allFinished (env : Env) (rid : String) (s : DbState)
    (slug url : String) (h : allFinished s) :
    allFinished (process_one env rid s slug url).1 := by
  unfold process_one
  simp only
  have hkey : ∀ r ∈ (process_slug env
      (start_run (update_url_status s slug .processing none) rid slug).1 slug rid).1.runs,
      r.finished = true ∨ (r.run_id = rid ∧ r.slug = slug) := by
    intro r hr
    rw [process_slug_runs] at hr
    rcases start_run_cases (update_url_status s slug .processing none) rid slug with hc | hc
    · rw [hc] at hr
      rw [update_url_status_runs] at hr
      exact .inl (h r hr)
    · rw [hc, update_url_status_runs] at hr
      rcases List.mem_append.mp hr with hr | hr
      · exact .inl (h r hr)
      · rcases List.mem_singleton.mp hr with rfl
        exact .inr ⟨rfl, rfl⟩
  split <;> exact allFinished_finish_run_of _ rid slug _ _ (fun r hr => hkey r hr)

theorem process_one_trace_numActive (env : Env) (rid : String) (s : DbState)
    (slug url : String) (h : allFinished s) :
    ∀ t ∈ (process_one env rid s slug url).2.2, numActive t ≤ 1 := by
  have hs1 : allFinished (update_url_status s slug .processing none) := by
    intro r hr; rw [update_url_status_runs] at hr; exact h r hr
  have hs2 : numActive
      (start_run (update_url_status s slug .processing none) rid slug).1 ≤ 1 :=
    numActive_start_run_le rid slug hs1
  have hfin : allFinished (process_one env rid s slug url).1 :=
    process_one_allFinished env rid s slug url h
  revert hfin
  unfold process_one
  simp only
  split <;> intro hfin <;> intro t ht
  all_goals {
    rcases List.mem_cons.mp ht with rfl | ht
    · rw [numActive_eq_zero_of_allFinished hs1]; omega
    rcases List.mem_cons.mp ht with rfl | ht
    · exact hs2
    rcases List.mem_append.mp ht with ht | ht
    · rw [numActive_congr (process_slug_trace_runs env _ slug rid t ht)]
      exact hs2
    rcases List.mem_cons.mp ht with rfl | ht
    · rw [numActive_congr (by rw [update_url_status_runs, process_slug_runs] :
        _ = (start_run (update_url_status s slug .processing none) rid slug).1.runs)]
      exact hs2
    rcases List.mem_cons.mp ht with rfl | ht
    · rw [numActive_eq_zero_of_allFinished hfin]; omega
    · exact absurd ht (List.not_mem_nil t)
  }

theorem process_list_allFinished (env : Env) (rid : String) :
    ∀ (l : List (String × String)) (s : DbState), allFinished s →
      allFinished (process_list env rid s l).1 := by
  intro l
  induction l with
  | nil => intro s h; exact h
  | cons p rest ih =>
    intro s h
    obtain ⟨slug, url⟩ := p
    simp only [process_list]
    exact ih _ (process_one_allFinished env rid s slug url h)

theorem process_list_trace_numActive (env : Env) (rid : String) :
    ∀ (l : List (String × String)) (s : DbState), allFinished s →
      ∀ t ∈ (process_list env rid s l).2.2.2, numActive t ≤ 1 := by
  intro l
  induction l with
  | nil => intro s _ t ht; simp [process_list] at ht
  | cons p rest ih =>
    intro s h t ht
    obtain ⟨slug, url⟩ := p
    simp only [process_list] at ht
    rcases List.mem_append.mp ht with ht | ht
    · exact process_one_trace_numActive env rid s slug url h t ht
    · exact ih _ (process_one_allFinished env rid s slug url h) t ht

theorem process_pending_allFinished (env : Env) (rid : String) (limit : Option Nat)
    (s : DbState) (h : allFinished s) :
    allFinished (process_pending_urls env rid limit s).1 := by
  unfold process_pending_urls
  simp only
  split
  · exact h
  · exact process_list_allFinished env rid _ s h

theorem process_pending_trace_numActive (env : Env) (rid : String)
    (limit : Option Nat) (s : DbState) (h : allFinished s) :
    ∀ t ∈ (process_pending_urls env rid limit s).2.2, numActive t ≤ 1 := by
  unfold process_pending_urls
  simp only
  split
  · intro t ht; simp at ht
  · exact process_list_trace_numActive env rid _ s h

theorem retry_allFinished (env : Env) (rid : String) (s : DbState)
    (h : allFinished s) : allFinished (retry_failed_urls env rid s).1 := by
  unfold retry_failed_urls
  simp only
  split
  · exact h
  · apply process_pending_allFinished
    intro r hr
    rw [reset_failed_runs] at hr
    exact h r hr

theorem retry_trace_numActive (env : Env) (rid : String) (s : DbState)
    (h : allFinished s) :
    ∀ t ∈ (retry_failed_urls env rid s).2.2, numActive t ≤ 1 := by
  unfold retry_failed_urls
  simp only
  split
  · intro t ht; simp at ht
  · intro t ht
    rcases List.mem_append.mp ht with ht | ht
    · rw [numActive_congr (reset_failed_trace_runs _ s t ht),
        numActive_eq_zero_of_allFinished h]
      omega
    · apply process_pending_trace_numActive env rid _ _ _ t ht
      intro r hr
      rw [reset_failed_runs] at hr
      exact h r hr

theorem allFinished_reachable {s : DbState} (hs : Reachable s) : allFinished s := by
  induction hs with
  | init => intro r hr; exact absurd hr (List.not_mem_nil r)
  | step op hr hfresh ih =>
    cases op with
    | addUrl slug url =>
      intro r hrm
      rw [applyOp, add_url_runs] at hrm
      exact ih r hrm
    | processPending env rid limit => exact process_pending_allFinished env rid limit _ ih
    | retryFailed env rid => exact retry_allFinished env rid _ ih

/-! ## Image foreign-key lemmas -/

theorem imagesHaveRuns_update_url_status (s : DbState) (slug : String)
    (st : Status) (e : Option String) (h : imagesHaveRuns s) :
    imagesHaveRuns (update_url_status s slug st e) := h

theorem imagesHaveRuns_start_run (s : DbState) (rid slug : String)
    (h : imagesHaveRuns s) : imagesHaveRuns (start_run s rid slug).1 := by
  intro i hi
  rw [start_run_images] at hi
  obtain ⟨r, hr, hk⟩ := h i hi
  rcases start_run_cases s rid slug with hc | hc
  · rw [hc]; exact ⟨r, hr, hk⟩
  · refine ⟨r, ?_, hk⟩
    rw [hc]
    exact List.mem_append_left _ hr

theorem imagesHaveRuns_finish_run (s : DbState) (rid slug : String) (ok : Bool)
    (e : Option String) (h : imagesHaveRuns s) :
    imagesHaveRuns (finish_run s rid slug ok e) := by
  intro i hi
  obtain ⟨r, hr, hk⟩ := h i hi
  unfold finish_run
  refine ⟨if r.run_id == rid && r.slug == slug then
      { r with finished := true, ok := some ok, error_msg := e } else r, ?_, ?_⟩
  · simp only [List.mem_map]
    exact ⟨r, hr, by split <;> rfl⟩
  · split <;> exact hk

theorem imagesHaveRuns_add_image (s : DbState) (rid slug fn : String) (idx : Nat)
    (title : String) (h : imagesHaveRuns s) :
    imagesHaveRuns (add_image s rid slug fn idx title).1 := by
  unfold add_image
  split
  · exact h
  · rename_i hcond
    have hany : s.runs.any (fun r => r.run_id == rid && r.slug == slug) = true := by
      rcases hx : s.runs.any (fun r => r.run_id == rid && r.slug == slug) with _ | _
      · exact absurd (by rw [hx]; simp) hcond
      · rfl
    intro i hi
    simp only at hi
    rcases List.mem_append.mp hi with hi | hi
    · exact h i hi
    · rcases List.mem_singleton.mp hi with rfl
      obtain ⟨r, hr, hk⟩ := List.any_eq_true.mp hany
      rw [Bool.and_eq_true, beq_iff_eq, beq_iff_eq] at hk
      exact ⟨r, hr, hk.1, hk.2⟩

theorem imagesHaveRuns_save_results (rid slug : String) :
    ∀ (shots : List Shot) (s : DbState), imagesHaveRuns s →
      imagesHaveRuns (save_results s rid slug shots).1 ∧
      ∀ t ∈ (save_results s rid slug shots).2.2, imagesHaveRuns t := by
  intro shots
  induction shots with
  | nil => intro s h; exact ⟨h, by intro t ht; simp [save_results] at ht⟩
  | cons shot rest ih =>
    intro s h
    have h1 : imagesHaveRuns (add_image s rid slug shot.filename shot.idx shot.section_title).1 :=
      imagesHaveRuns_add_image s rid slug shot.filename shot.idx shot.section_title h
    simp only [save_results]
    split
    · obtain ⟨hf, htr⟩ := ih _ h1
      refine ⟨hf, ?_⟩
      intro t ht
      rcases List.mem_cons.mp ht with rfl | ht
      · exact h1
      · exact htr t ht
    · refine ⟨h1, ?_⟩
      intro t ht
      rcases List.mem_singleton.mp ht with rfl
      exact h1

theorem imagesHaveRuns_process_slug (env : Env) (s : DbState) (slug rid : String)
    (h : imagesHaveRuns s) :
    imagesHaveRuns (process_slug env s slug rid).1 ∧
      ∀ t ∈ (process_slug env s slug rid).2.2.2, imagesHaveRuns t := by
  cases henv : env slug with
  | success shots =>
    obtain ⟨hf, htr⟩ := imagesHaveRuns_save_results rid slug shots s h
    unfold process_slug
    rw [henv]
    simp only
    constructor
    · split <;> exact hf
    · intro t ht
      revert ht
      split <;> intro ht <;> exact htr t ht
  | expansionFailed msg =>
    unfold process_slug
    rw [henv]
    exact ⟨h, by intro t ht; simp at ht⟩
  | validationFailed errs =>
    unfold process_slug
    rw [henv]
    exact ⟨h, by intro t ht; simp at ht⟩
  | otherFailure msg =>
    unfold process_slug
    rw [henv]
    exact ⟨h, by intro t ht; simp at ht⟩

theorem imagesHaveRuns_process_one (env : Env) (rid : String) (s : DbState)
    (slug url : String) (h : imagesHaveRuns s) :
    imagesHaveRuns (process_one env rid s slug url).1 ∧
      ∀ t ∈ (process_one env rid s slug url).2.2, imagesHaveRuns t := by
  have h1 : imagesHaveRuns (update_url_status s slug .processing none) := h
  have h2 : imagesHaveRuns
      (start_run (update_url_status s slug .processing none) rid slug).1 :=
    imagesHaveRuns_start_run _ rid slug h1
  obtain ⟨h3, h3t⟩ := imagesHaveRuns_process_slug env _ slug rid h2
  unfold process_one
  simp only
  split
  all_goals {
    refine ⟨imagesHaveRuns_finish_run _ rid slug _ _ h3, ?_⟩
    intro t ht
    rcases List.mem_cons.mp ht with rfl | ht
    · exact h1
    rcases List.mem_cons.mp ht with rfl | ht
    · exact h2
    rcases List.mem_append.mp ht with ht | ht
    · exact h3t t ht
    rcases List.mem_cons.mp ht with rfl | ht
    · exact h3
    rcases List.mem_cons.mp ht with rfl | ht
    · exact imagesHaveRuns_finish_run _ rid slug _ _ h3
    · exact absurd ht (List.not_mem_nil t)
  }

theorem imagesHaveRuns_process_list (env : Env) (rid : String) :
    ∀ (l : List (String × String)) (s : DbState), imagesHaveRuns s →
      imagesHaveRuns (process_list env rid s l).1 ∧
      ∀ t ∈ (process_list env rid s l).2.2.2, imagesHaveRuns t := by
  intro l
  induction l with
  | nil => intro s h; exact ⟨h, by intro t ht; simp [process_list] at ht⟩
  | cons p rest ih =>
    intro s h
    obtain ⟨slug, url⟩ := p
    obtain ⟨h1, h1t⟩ := imagesHaveRuns_process_one env rid s slug url h
    obtain ⟨h2, h2t⟩ := ih _ h1
    simp only [process_list]
    refine ⟨h2, ?_⟩
    intro t ht
    rcases List.mem_append.mp ht with ht | ht
    · exact h1t t ht
    · exact h2t t ht

theorem imagesHaveRuns_process_pending (env : Env) (rid : String)
    (limit : Option Nat) (s : DbState) (h : imagesHaveRuns s) :
    imagesHaveRuns (process_pending_urls env rid limit s).1 ∧
      ∀ t ∈ (process_pending_urls env rid limit s).2.2, imagesHaveRuns t := by
  unfold process_pending_urls
  simp only
  split
  · exact ⟨h, by intro t ht; simp at ht⟩
  · exact imagesHaveRuns_process_list env rid _ s h

theorem imagesHaveRuns_reset_failed :
    ∀ (l : List (String × String × Option String)) (s : DbState),
      imagesHaveRuns s →
      imagesHaveRuns (reset_failed s l).1 ∧
      ∀ t ∈ (reset_failed s l).2, imagesHaveRuns t := by
  intro l
  induction l with
  | nil => intro s h; exact ⟨h, by intro t ht; simp [reset_failed] at ht⟩
  | cons p rest ih =>
    intro s h
    obtain ⟨h1, h1t⟩ := ih (update_url_status s p.1 .pending none) h
    simp only [reset_failed]
    refine ⟨h1, ?_⟩
    intro t ht
    rcases List.mem_cons.mp ht with rfl | ht
    · exact h
    · exact h1t t ht

theorem imagesHaveRuns_retry (env : Env) (rid : String) (s : DbState)
    (h : imagesHaveRuns s) :
    imagesHaveRuns (retry_failed_urls env rid s).1 ∧
      ∀ t ∈ (retry_failed_urls env rid s).2.2, imagesHaveRuns t := by
  unfold retry_failed_urls
  simp only
  split
  · exact ⟨h, by intro t ht; simp at ht⟩
  · obtain ⟨h1, h1t⟩ := imagesHaveRuns_reset_failed (get_failed_urls s) s h
    obtain ⟨h2, h2t⟩ := imagesHaveRuns_process_pending env rid
      (some (get_failed_urls s).length) _ h1
    refine ⟨h2, ?_⟩
    intro t ht
    rcases List.mem_append.mp ht with ht | ht
    · exact h1t t ht
    · exact h2t t ht

theorem imagesHaveRuns_add_url (s : DbState) (slug url : String)
    (h : imagesHaveRuns s) : imagesHaveRuns (add_url s slug url).1 := by
  intro i hi
  rw [add_url_images] at hi
  obtain ⟨r, hr, hk⟩ := h i hi
  refine ⟨r, ?_, hk⟩
  rw [add_url_runs]
  exact hr

theorem imagesHaveRuns_reachable {s : DbState} (hs : Reachable s) :
    imagesHaveRuns s := by
  induction hs with
  | init => intro i hi; exact absurd hi (List.not_mem_nil i)
  | step op hr hfresh ih =>
    cases op with
    | addUrl slug url => exact imagesHaveRuns_add_url _ slug url ih
    | processPending env rid limit =>
      exact (imagesHaveRuns_process_pending env rid limit _ ih).1
    | retryFailed env rid => exact (imagesHaveRuns_retry env rid _ ih).1

/-- When the batch iteration reaches `process_slug` (and hence any
`add_image` call of `_save_results`), the run row started for this iteration
exists: either `start_run` inserted it, or its primary-key insert failed
because the row was already there. -/
theorem run_exists_when_saving (s : DbState) (rid slug : String)
    (h : s.urls.any (fun u => u.slug == slug) = true) :
    ∃ r ∈ (start_run (update_url_status s slug .processing none) rid slug).1.runs,
      r.run_id = rid ∧ r.slug = slug := by
  have hurls : (update_url_status s slug .processing none).urls.any
      (fun u => u.slug == slug) = true := by
    obtain ⟨u, hu, hk⟩ := List.any_eq_true.mp h
    apply List.any_eq_true.mpr
    refine ⟨if u.slug == slug then updateRec .processing none u else u, ?_, ?_⟩
    · exact List.mem_map_of_mem _ hu
    · split
      · rw [updateRec_slug]; exact hk
      · exact hk
  unfold start_run
  split
  · rename_i hcond
    rw [Bool.or_eq_true] at hcond
    rcases hcond with hdup | hno
    · obtain ⟨r, hr, hk⟩ := List.any_eq_true.mp hdup
      rw [Bool.and_eq_true, beq_iff_eq, beq_iff_eq] at hk
      exact ⟨r, hr, hk.1, hk.2⟩
    · exact absurd hurls (by simpa using hno)
  · exact ⟨⟨rid, slug, false, none, none⟩, by simp, rfl, rfl⟩

/-! ## Status-monotonicity lemmas -/

theorem urlStep_of_urls_eq (ar : Bool) {s t : DbState} (h : s.urls = t.urls) :
    urlStep ar s t :=
  fun slug => .inl (getStatus_eq_of_urls h slug).symm

theorem urlStep_update_general (ar : Bool) {x s3 : DbState} (hx : x.urls = s3.urls)
    (slug : String) (st : Status) (e : Option String)
    (h : ∀ a, getStatus s3 slug = some a →
      statusEdge a st ∨ (ar = true ∧ a.isFailed = true ∧ st = .pending)) :
    urlStep ar x (update_url_status s3 slug st e) := by
  intro sl
  have hgx : ∀ sl', getStatus x sl' = getStatus s3 sl' :=
    fun sl' => getStatus_eq_of_urls hx sl'
  by_cases hsl : sl = slug
  · subst hsl
    rw [getStatus_update_self, hgx]
    cases hgs : getStatus s3 sl with
    | none => left; rfl
    | some a =>
      right; right
      exact ⟨a, st, rfl, rfl, h a hgs⟩
  · left
    rw [getStatus_update_other _ _ _ _ hsl, hgx]

theorem chain'_urlStep_const (ar : Bool) (u : List UrlRec) :
    ∀ l : List DbState, (∀ t ∈ l, t.urls = u) → List.Chain' (urlStep ar) l := by
  intro l
  induction l with
  | nil => intro _; exact List.chain'_nil
  | cons a l ih =>
    intro h
    cases l with
    | nil => exact List.chain'_singleton a
    | cons b l2 =>
      rw [List.chain'_cons]
      refine ⟨urlStep_of_urls_eq ar ?_, ih ?_⟩
      · rw [h a (by simp), h b (by simp)]
      · intro t ht
        exact h t (by simp [ht])

theorem process_one_trace_last (env : Env) (rid : String) (s : DbState)
    (slug url : String) :
    (process_one env rid s slug url).2.2.getLast? =
      some (process_one env rid s slug url).1 := by
  unfold process_one
  simp only
  split <;>
    · rw [← List.cons_append, ← List.cons_append, List.getLast?_append]
      rfl

theorem process_one_trace_ne_nil (env : Env) (rid : String) (s : DbState)
    (slug url : String) : (process_one env rid s slug url).2.2 ≠ [] := by
  unfold process_one
  simp only
  split <;> simp

theorem chain_process_one (ar : Bool) (env : Env) (rid : String) (s : DbState)
    (slug url : String) (hp : getStatus s slug = some .pending) :
    List.Chain' (urlStep ar) (s :: (process_one env rid s slug url).2.2) := by
  have hs1 : getStatus (update_url_status s slug .processing none) slug =
      some .processing := by
    rw [getStatus_update_self, hp]; rfl
  have hs2 : getStatus
      (start_run (update_url_status s slug .processing none) rid slug).1 slug =
      some .processing := by
    rw [getStatus_start_run]; exact hs1
  unfold process_one
  simp only
  have hmid : ∀ t ∈ (process_slug env
      (start_run (update_url_status s slug .processing none) rid slug).1 slug
        rid).2.2.2,
      t.urls = (start_run (update_url_status s slug .processing none) rid slug).1.urls :=
    process_slug_trace_urls env _ slug rid
  have hlast : ∀ x ∈ (((start_run (update_url_status s slug .processing none) rid slug).1 ::
      (process_slug env
        (start_run (update_url_status s slug .processing none) rid slug).1 slug
          rid).2.2.2)).getLast?,
      x.urls = (start_run (update_url_status s slug .processing none) rid slug).1.urls := by
    intro x hx
    have hxmem := List.mem_of_mem_getLast? hx
    rcases List.mem_cons.mp hxmem with rfl | hxmem
    · rfl
    · exact hmid x hxmem
  split
  all_goals {
    rw [List.chain'_cons]
    constructor
    · exact urlStep_update_general ar rfl slug .processing none
        (fun a ha => .inl (by rw [hp] at ha; cases ha; left; exact ⟨rfl, rfl⟩))
    rw [show ∀ (a b : DbState) (l1 l2 : List DbState),
        (a :: b :: (l1 ++ l2)) = (a :: b :: l1) ++ l2 from fun _ _ _ _ => by simp,
      List.chain'_append]
    refine ⟨?_, ?_, ?_⟩
    · rw [List.chain'_cons']
      constructor
      · intro y hy
        simp only [List.head?_cons, Option.mem_def, Option.some.injEq] at hy
        subst hy
        exact urlStep_of_urls_eq ar (by rw [start_run_urls])
      · apply chain'_urlStep_const ar
          (start_run (update_url_status s slug .processing none) rid slug).1.urls
        intro t ht
        rcases List.mem_cons.mp ht with rfl | ht
        · rfl
        · exact hmid t ht
    · rw [List.chain'_cons]
      refine ⟨urlStep_of_urls_eq ar (by rw [finish_run_urls]), List.chain'_singleton _⟩
    · intro x hx y hy
      simp only [List.head?_cons, Option.mem_def, Option.some.injEq] at hy
      subst hy
      rw [List.getLast?_cons_cons] at hx
      have hxurls := hlast x hx
      apply urlStep_update_general ar
        (by rw [hxurls, process_slug_urls])
      intro a ha
      left
      rw [getStatus_process_slug, hs2] at ha
      cases ha
      right
      exact ⟨rfl, by simp⟩
  }

theorem pending_map_fst_sublist (s : DbState) (limit : Option Nat) :
    ((get_pending_urls s limit).map (·.1)).Sublist (slugs s) := by
  have hbase : ((get_pending_urls s none).map (·.1)).Sublist (slugs s) := by
    unfold get_pending_urls slugs
    simp only [List.map_map]
    exact List.Sublist.map _ (List.filter_sublist s.urls)
  cases limit with
  | none => exact hbase
  | some n =>
    by_cases hn : n = 0
    · subst hn
      simpa [get_pending_urls] using hbase
    · rw [get_pending_urls_take s n hn, List.map_take]
      exact List.Sublist.trans (List.take_sublist n _) hbase

theorem failed_map_fst_sublist (s : DbState) :
    ((get_failed_urls s).map (·.1)).Sublist (slugs s) := by
  unfold get_failed_urls slugs
  simp only [List.map_map]
  exact List.Sublist.map _ (List.filter_sublist s.urls)

theorem pending_mem_status {s : DbState} (hnd : (slugs s).Nodup)
    {limit : Option Nat} {x : String × String}
    (hx : x ∈ get_pending_urls s limit) : getStatus s x.1 = some .pending := by
  obtain ⟨u, hu, hust, hxe⟩ :=
    (mem_get_pending_urls_none s x).mp (get_pending_urls_subset s limit x hx)
  subst hxe
  rw [getStatus_of_mem_nodup hnd hu rfl, hust]

theorem failed_mem_status {s : DbState} (hnd : (slugs s).Nodup)
    {x : String × String × Option String} (hx : x ∈ get_failed_urls s) :
    ∃ st, getStatus s x.1 = some st ∧ st.isFailed = true := by
  obtain ⟨u, hu, hust, hxe⟩ := (mem_get_failed_urls s x).mp hx
  subst hxe
  exact ⟨u.status, getStatus_of_mem_nodup hnd hu rfl, hust⟩

theorem chain_process_list (ar : Bool) (env : Env) (rid : String) :
    ∀ (l : List (String × String)) (s : DbState),
      (∀ x ∈ l, getStatus s x.1 = some .pending) → ((l.map (·.1)).Nodup) →
      List.Chain' (urlStep ar) (s :: (process_list env rid s l).2.2.2) := by
  intro l
  induction l with
  | nil => intro s _ _; exact List.chain'_singleton s
  | cons p rest ih =>
    intro s hpend hnd
    obtain ⟨slug, url⟩ := p
    simp only [List.map_cons, List.nodup_cons] at hnd
    have hrest : ∀ x ∈ rest, getStatus (process_one env rid s slug url).1 x.1 =
        some .pending := by
      intro x hx
      rw [process_one_getStatus_other env rid s slug url
        (fun hne => hnd.1 (by rw [← hne]; exact List.mem_map.mpr ⟨x, hx, rfl⟩))]
      exact hpend x (by simp [hx])
    have hchain2 := ih _ hrest hnd.2
    simp only [process_list]
    rw [← List.cons_append, List.chain'_append]
    refine ⟨chain_process_one ar env rid s slug url (hpend (slug, url) (by simp)), ?_, ?_⟩
    · exact (List.chain'_cons'.mp hchain2).2
    · intro x hx y hy
      rw [List.getLast?_cons, process_one_trace_last] at hx
      simp only [Option.getD_some, Option.mem_def, Option.some.injEq] at hx
      subst hx
      exact (List.chain'_cons'.mp hchain2).1 y hy

theorem process_list_trace_last (env : Env) (rid : String) :
    ∀ (l : List (String × String)) (s : DbState), l ≠ [] →
      (process_list env rid s l).2.2.2.getLast? = some (process_list env rid s l).1 := by
  intro l
  induction l with
  | nil => intro s h; exact absurd rfl h
  | cons p rest ih =>
    intro s _
    obtain ⟨slug, url⟩ := p
    simp only [process_list]
    by_cases hr : rest = []
    · subst hr
      simp only [process_list, List.append_nil]
      exact process_one_trace_last env rid s slug url
    · rw [List.getLast?_append, ih _ hr]
      rfl

theorem reset_failed_trace_last :
    ∀ (l : List (String × String × Option String)) (s : DbState), l ≠ [] →
      (reset_failed s l).2.getLast? = some (reset_failed s l).1 := by
  intro l
  induction l with
  | nil => intro s h; exact absurd rfl h
  | cons p rest ih =>
    intro s _
    simp only [reset_failed]
    by_cases hr : rest = []
    · subst hr; rfl
    · rw [List.getLast?_cons, ih _ hr]
      rfl

theorem chain_process_pending (ar : Bool) (env : Env) (rid : String)
    (limit : Option Nat) (s : DbState) (hnd : (slugs s).Nodup) :
    List.Chain' (urlStep ar) (s :: (process_pending_urls env rid limit s).2.2) := by
  unfold process_pending_urls
  simp only
  split
  · exact List.chain'_singleton s
  · exact chain_process_list ar env rid _ s
      (fun x hx => pending_mem_status hnd hx)
      (List.Sublist.nodup (pending_map_fst_sublist s limit) hnd)

theorem chain_reset_failed :
    ∀ (l : List (String × String × Option String)) (s : DbState),
      (∀ x ∈ l, ∃ st, getStatus s x.1 = some st ∧ st.isFailed = true) →
      ((l.map (·.1)).Nodup) →
      List.Chain' (urlStep true) (s :: (reset_failed s l).2) := by
  intro l
  induction l with
  | nil => intro s _ _; exact List.chain'_singleton s
  | cons p rest ih =>
    intro s hfail hnd
    simp only [List.map_cons, List.nodup_cons] at hnd
    simp only [reset_failed]
    rw [List.chain'_cons]
    constructor
    · obtain ⟨st, hst, hfl⟩ := hfail p (by simp)
      apply urlStep_update_general true rfl p.1 .pending none
      intro a ha
      rw [hst] at ha
      cases ha
      exact .inr ⟨rfl, hfl, rfl⟩
    · apply ih
      · intro x hx
        obtain ⟨st, hst, hfl⟩ := hfail x (by simp [hx])
        refine ⟨st, ?_, hfl⟩
        rw [getStatus_update_other _ _ _ _
          (fun hne => hnd.1 (by rw [← hne]; exact List.mem_map.mpr ⟨x, hx, rfl⟩))]
        exact hst
      · exact hnd.2

theorem chain_retry (env : Env) (rid : String) (s : DbState)
    (hnd : (slugs s).Nodup) :
    List.Chain' (urlStep true) (s :: (retry_failed_urls env rid s).2.2) := by
  unfold retry_failed_urls
  simp only
  split
  · exact List.chain'_singleton s
  · rename_i hne
    have hne' : get_failed_urls s ≠ [] := by simpa using hne
    have hchain1 := chain_reset_failed (get_failed_urls s) s
      (fun x hx => failed_mem_status hnd hx)
      (List.Sublist.nodup (failed_map_fst_sublist s) hnd)
    have hnd1 : (slugs (reset_failed s (get_failed_urls s)).1).Nodup := by
      rw [slugs_reset_failed]; exact hnd
    have hchain2 := chain_process_pending true env rid
      (some (get_failed_urls s).length) _ hnd1
    rw [← List.cons_append, List.chain'_append]
    refine ⟨hchain1, (List.chain'_cons'.mp hchain2).2, ?_⟩
    intro x hx y hy
    rw [List.getLast?_cons, reset_failed_trace_last _ _ hne'] at hx
    simp only [Option.getD_some, Option.mem_def, Option.some.injEq] at hx
    subst hx
    exact (List.chain'_cons'.mp hchain2).1 y hy

theorem chain_add_url (ar : Bool) (s : DbState) (slug url : String) :
    List.Chain' (urlStep ar) [s, (add_url s slug url).1] := by
  rw [List.chain'_cons]
  refine ⟨?_, List.chain'_singleton _⟩
  unfold add_url
  split
  · exact urlStep_of_urls_eq ar rfl
  · rename_i habs
    intro sl
    by_cases hsl : sl = slug
    · subst hsl
      right; left
      constructor
      · unfold getStatus
        rw [List.find?_eq_none.mpr]
        · rfl
        · intro u hu
          simp only [beq_iff_eq]
          intro hc
          exact habs (List.any_eq_true.mpr ⟨u, hu, by simp [hc]⟩)
      · unfold getStatus
        simp only
        rw [List.find?_append, List.find?_eq_none.mpr, Option.none_or]
        · rw [List.find?_cons_of_pos _ (by simp)]
          rfl
        · intro u hu
          simp only [beq_iff_eq]
          intro hc
          exact habs (List.any_eq_true.mpr ⟨u, hu, by simp [hc]⟩)
    · left
      unfold getStatus
      simp only
      rw [List.find?_append]
      cases hf : s.urls.find? (fun u => u.slug == sl) with
      | some u => rfl
      | none =>
        simp only [Option.none_or]
        rw [List.find?_eq_none.mpr]
        intro v hv
        rcases List.mem_singleton.mp hv with rfl
        simp only [beq_iff_eq]
        exact fun hc => hsl hc.symm

theorem not_pending_not_in_pending_query {s : DbState} {slug : String}
    {st : Status} (hnd : (slugs s).Nodup) (hst : getStatus s slug = some st)
    (hne : st ≠ .pending) :
    ∀ limit, slug ∉ (get_pending_urls s limit).map (·.1) := by
  intro limit hmem
  obtain ⟨x, hx, hfst⟩ := List.mem_map.mp hmem
  have hp := pending_mem_status hnd hx
  rw [hfst, hst] at hp
  exact hne (Option.some.inj hp)

theorem not_failed_not_in_failed_query {s : DbState} {slug : String}
    {st : Status} (hnd : (slugs s).Nodup) (hst : getStatus s slug = some st)
    (hnf : st.isFailed = false) :
    slug ∉ (get_failed_urls s).map (·.1) := by
  intro hmem
  obtain ⟨x, hx, hfst⟩ := List.mem_map.mp hmem
  obtain ⟨st', hst', hfl⟩ := failed_mem_status hnd hx
  rw [hfst, hst] at hst'
  cases Option.some.inj hst'
  rw [hfl] at hnf
  simp at hnf

theorem process_pending_getStatus_stable (env : Env) (rid : String)
    (limit : Option Nat) {s : DbState} {slug : String} {st : Status}
    (hnd : (slugs s).Nodup) (hst : getStatus s slug = some st)
    (hne : st ≠ .pending) :
    getStatus (process_pending_urls env rid limit s).1 slug = some st := by
  unfold process_pending_urls
  simp only
  split
  · exact hst
  · rw [process_list_getStatus_not_mem env rid _ s
      (not_pending_not_in_pending_query hnd hst hne limit)]
    exact hst

theorem retry_getStatus_stable (env : Env) (rid : String) {s : DbState}
    {slug : String} {st : Status} (hnd : (slugs s).Nodup)
    (hst : getStatus s slug = some st) (hne : st ≠ .pending)
    (hnf : st.isFailed = false) :
    getStatus (retry_failed_urls env rid s).1 slug = some st := by
  unfold retry_failed_urls
  simp only
  split
  · exact hst
  · have h1 : getStatus (reset_failed s (get_failed_urls s)).1 slug = some st := by
      rw [reset_failed_getStatus_not_mem _ s
        (not_failed_not_in_failed_query hnd hst hnf)]
      exact hst
    have hnd1 : (slugs (reset_failed s (get_failed_urls s)).1).Nodup := by
      rw [slugs_reset_failed]; exact hnd
    exact process_pending_getStatus_stable env rid _ hnd1 h1 hne

theorem getStatus_add_url_isSome (s : DbState) (slug slug' url : String)
    (h : (getStatus s slug).isSome = true) :
    getStatus (add_url s slug' url).1 slug = getStatus s slug := by
  unfold add_url
  split
  · rfl
  · unfold getStatus at h ⊢
    simp only at h ⊢
    rw [List.find?_append]
    cases hf : s.urls.find? (fun u => u.slug == slug) with
    | none => rw [hf] at h; simp at h
    | some u => rfl

/-! ## Retry-exactness lemmas -/

theorem process_list_status_done_or_failed (env : Env) (rid : String) :
    ∀ (l : List (String × String)) (s : DbState),
      (∀ x ∈ l, getStatus s x.1 = some .pending) → ((l.map (·.1)).Nodup) →
      ∀ sl ∈ l.map (·.1),
        getStatus (process_list env rid s l).1 sl = some .done ∨
        getStatus (process_list env rid s l).1 sl = some .failed_expansion := by
  intro l
  induction l with
  | nil => intro s _ _ sl hsl; simp at hsl
  | cons p rest ih =>
    intro s hpend hnd sl hsl
    obtain ⟨slug, url⟩ := p
    simp only [List.map_cons, List.nodup_cons] at hnd
    have hrest : ∀ x ∈ rest, getStatus (process_one env rid s slug url).1 x.1 =
        some .pending := by
      intro x hx
      rw [process_one_getStatus_other env rid s slug url
        (fun hne => hnd.1 (by rw [← hne]; exact List.mem_map.mpr ⟨x, hx, rfl⟩))]
      exact hpend x (by simp [hx])
    simp only [process_list]
    rcases List.mem_cons.mp hsl with rfl | hsl
    · rw [process_list_getStatus_not_mem env rid rest _ hnd.1]
      cases hok : (process_one env rid s sl url).2.1 with
      | true =>
        left
        rw [process_one_getStatus_self_done env rid s sl url hok,
          hpend (sl, url) (by simp)]
        rfl
      | false =>
        right
        rw [process_one_getStatus_self_failed env rid s sl url hok,
          hpend (sl, url) (by simp)]
        rfl
    · exact ih _ hrest hnd.2 sl hsl

theorem reset_failed_getStatus_mem :
    ∀ (l : List (String × String × Option String)) (s : DbState) {sl : String},
      sl ∈ l.map (·.1) →
      getStatus (reset_failed s l).1 sl = (getStatus s sl).map (fun _ => .pending) := by
  intro l
  induction l with
  | nil => intro s sl hsl; simp at hsl
  | cons p rest ih =>
    intro s sl hsl
    simp only [reset_failed]
    by_cases h : sl ∈ rest.map (·.1)
    · rw [ih _ h, getStatus_update_url_status]
      split
      · rename_i he
        subst he
        rw [Option.map_map]
        rfl
      · rfl
    · rw [List.map_cons, List.mem_cons] at hsl
      have hsl1 : sl = p.1 := by
        rcases hsl with h1 | h1
        · exact h1
        · exact absurd h1 h
      subst hsl1
      rw [reset_failed_getStatus_not_mem rest _ h, getStatus_update_self]

theorem reset_failed_urls_map :
    ∀ (l : List (String × String × Option String)) (s : DbState),
      (reset_failed s l).1.urls =
        s.urls.map (fun u =>
          if u.slug ∈ l.map (·.1) then { u with status := .pending } else u) := by
  intro l
  induction l with
  | nil =>
    intro s
    simp only [reset_failed, List.map_nil]
    symm
    conv_rhs => rw [← List.map_id s.urls]
    apply List.map_congr_left
    intro u _
    simp
  | cons p rest ih =>
    intro s
    simp only [reset_failed]
    rw [ih, update_url_status, List.map_map]
    apply List.map_congr_left
    intro u _
    simp only [Function.comp_apply]
    by_cases hc1 : (u.slug == p.1) = true
    · rw [if_pos hc1]
      have hslugeq : (updateRec Status.pending none u).slug = u.slug :=
        updateRec_slug _ _ _
      have hmemc : u.slug ∈ (p :: rest).map (·.1) := by
        rw [List.map_cons]
        exact List.mem_cons.mpr (.inl (by simpa using hc1))
      by_cases hc2 : u.slug ∈ rest.map (·.1)
      · rw [if_pos (by rw [hslugeq]; exact hc2), if_pos hmemc]
        rfl
      · rw [if_neg (by rw [hslugeq]; exact hc2), if_pos hmemc]
        rfl
    · rw [if_neg hc1]
      by_cases hc2 : u.slug ∈ rest.map (·.1)
      · rw [if_pos hc2, if_pos (by rw [List.map_cons]; exact List.mem_cons.mpr (.inr hc2))]
      · rw [if_neg hc2, if_neg (by
          rw [List.map_cons]
          intro hmem
          rcases List.mem_cons.mp hmem with h | h
          · exact hc1 (by simp [h])
          · exact hc2 h)]

theorem update_url_status_urls (s : DbState) (slug : String) (st : Status)
    (e : Option String) :
    (update_url_status s slug st e).urls =
      s.urls.map (fun u => if u.slug == slug then updateRec st e u else u) := rfl

theorem get_pending_urls_none_split {s : DbState} {l1 l2 : List UrlRec}
    (hsplit : s.urls = l1 ++ l2) (h1 : ∀ u ∈ l1, u.status ≠ .pending)
    (h2 : ∀ u ∈ l2, u.status = .pending) :
    get_pending_urls s none = l2.map (fun u => (u.slug, u.url)) := by
  have hbase : get_pending_urls s none =
      (s.urls.filter (fun u => u.status == .pending)).map
        (fun u => (u.slug, u.url)) := rfl
  have hf1 : l1.filter (fun u => u.status == .pending) = [] := by
    rw [List.filter_eq_nil_iff]
    intro u hu
    simp only [beq_iff_eq]
    exact h1 u hu
  have hf2 : l2.filter (fun u => u.status == .pending) = l2 := by
    rw [List.filter_eq_self]
    intro u hu
    simp only [beq_iff_eq]
    exact h2 u hu
  rw [hbase, hsplit, List.filter_append, hf1, hf2, List.nil_append]

theorem get_pending_urls_split_take {s : DbState} {l1 l2 : List UrlRec}
    (hsplit : s.urls = l1 ++ l2) (h1 : ∀ u ∈ l1, u.status ≠ .pending)
    (h2 : ∀ u ∈ l2, u.status = .pending) (limit : Option Nat) :
    ∃ m, get_pending_urls s limit = (l2.take m).map (fun u => (u.slug, u.url)) := by
  cases limit with
  | none =>
    refine ⟨l2.length, ?_⟩
    rw [get_pending_urls_none_split hsplit h1 h2, List.take_length]
  | some n =>
    by_cases hn : n = 0
    · subst hn
      refine ⟨l2.length, ?_⟩
      have h0 : get_pending_urls s (some 0) = get_pending_urls s none := by
        simp [get_pending_urls]
      rw [h0, get_pending_urls_none_split hsplit h1 h2, List.take_length]
    · refine ⟨n, ?_⟩
      rw [get_pending_urls_take s n hn, get_pending_urls_none_split hsplit h1 h2,
        List.map_take]

theorem get_failed_urls_split {s : DbState} {l1 l2 : List UrlRec}
    (hsplit : s.urls = l1 ++ l2) (h2 : ∀ u ∈ l2, u.status = .pending) :
    get_failed_urls s =
      (l1.filter (fun u => u.status.isFailed)).map
        (fun u => (u.slug, u.url, u.last_error)) := by
  have hbase : get_failed_urls s =
      (s.urls.filter (fun u => u.status.isFailed)).map
        (fun u => (u.slug, u.url, u.last_error)) := rfl
  have hf2 : l2.filter (fun u => u.status.isFailed) = [] := by
    rw [List.filter_eq_nil_iff]
    intro u hu
    rw [h2 u hu]
    decide
  rw [hbase, hsplit, List.filter_append, hf2, List.append_nil]

theorem process_one_urls_map (env : Env) (rid : String) (s : DbState)
    (slug url : String) :
    ∃ f : UrlRec → UrlRec, (process_one env rid s slug url).1.urls = s.urls.map f ∧
      (∀ u, (f u).slug = u.slug) ∧ (∀ u, u.slug ≠ slug → f u = u) := by
  have key : ∀ (st : Status) (e : Option String) (x : DbState),
      x.urls = s.urls.map
        (fun u => if u.slug == slug then updateRec .processing none u else u) →
      ∃ f : UrlRec → UrlRec,
        (update_url_status x slug st e).urls = s.urls.map f ∧
        (∀ u, (f u).slug = u.slug) ∧ (∀ u, u.slug ≠ slug → f u = u) := by
    intro st e x hx
    refine ⟨fun u =>
      if u.slug == slug then updateRec st e (updateRec .processing none u) else u,
      ?_, ?_, ?_⟩
    · rw [update_url_status_urls, hx, List.map_map]
      apply List.map_congr_left
      intro u _
      simp only [Function.comp_apply]
      by_cases hc : (u.slug == slug) = true
      · simp [hc, updateRec_slug]
      · simp [hc]
    · intro u
      show (if u.slug == slug then updateRec st e (updateRec .processing none u)
        else u).slug = u.slug
      by_cases hc : (u.slug == slug) = true
      · rw [if_pos hc, updateRec_slug, updateRec_slug]
      · rw [if_neg (by simpa using hc)]
    · intro u hu
      show (if u.slug == slug then updateRec st e (updateRec .processing none u)
        else u) = u
      rw [if_neg (by simpa using hu)]
  have hx0 : (process_slug env
      (start_run (update_url_status s slug .processing none) rid slug).1
      slug rid).1.urls = s.urls.map
        (fun u => if u.slug == slug then updateRec .processing none u else u) := by
    rw [process_slug_urls, start_run_urls, update_url_status_urls]
  unfold process_one
  simp only
  split
  · obtain ⟨f, hf1, hf2, hf3⟩ := key .done none _ hx0
    exact ⟨f, by rw [finish_run_urls]; exact hf1, hf2, hf3⟩
  · obtain ⟨f, hf1, hf2, hf3⟩ := key .failed_expansion _ _ hx0
    exact ⟨f, by rw [finish_run_urls]; exact hf1, hf2, hf3⟩

theorem process_list_urls_map (env : Env) (rid : String) :
    ∀ (l : List (String × String)) (s : DbState),
      ∃ f : UrlRec → UrlRec,
        (process_list env rid s l).1.urls = s.urls.map f ∧
        (∀ u, (f u).slug = u.slug) ∧
        (∀ u, u.slug ∉ l.map (·.1) → f u = u) := by
  intro l
  induction l with
  | nil =>
    intro s
    refine ⟨id, ?_, fun _ => rfl, fun _ _ => rfl⟩
    rw [List.map_id]
    rfl
  | cons p rest ih =>
    intro s
    obtain ⟨f1, hf11, hf12, hf13⟩ := process_one_urls_map env rid s p.1 p.2
    obtain ⟨f2, hf21, hf22, hf23⟩ := ih (process_one env rid s p.1 p.2).1
    refine ⟨f2 ∘ f1, ?_, ?_, ?_⟩
    · have hstep : (process_list env rid s (p :: rest)).1 =
          (process_list env rid (process_one env rid s p.1 p.2).1 rest).1 := by
        obtain ⟨slug, url⟩ := p
        rfl
      rw [hstep, hf21, hf11, List.map_map]
    · intro u
      simp only [Function.comp_apply]
      rw [hf22, hf12]
    · intro u hu
      simp only [List.map_cons, List.mem_cons, not_or] at hu
      simp only [Function.comp_apply]
      rw [hf13 u hu.1, hf23 u (fun hmem => hu.2 hmem)]

theorem retry_core {s : DbState} {l1 l2 : List UrlRec}
    (hnd : (slugs s).Nodup) (hsplit : s.urls = l1 ++ l2)
    (h1 : ∀ u ∈ l1, u.status ≠ .pending) (h2 : ∀ u ∈ l2, u.status = .pending)
    (hne : get_failed_urls s ≠ []) :
    get_pending_urls (reset_failed s (get_failed_urls s)).1
        (some (get_failed_urls s).length) =
      (get_failed_urls s).map (fun t => (t.1, t.2.1)) := by
  have hinj : ∀ ⦃x : UrlRec⦄, x ∈ s.urls → ∀ ⦃y : UrlRec⦄, y ∈ s.urls →
      x.slug = y.slug → x = y := List.inj_on_of_nodup_map hnd
  have hfailed : get_failed_urls s =
      (l1.filter (fun u => u.status.isFailed)).map
        (fun u => (u.slug, u.url, u.last_error)) := get_failed_urls_split hsplit h2
  have hFfst : (get_failed_urls s).map (·.1) =
      (l1.filter (fun u => u.status.isFailed)).map (·.slug) := by
    rw [hfailed, List.map_map]
    rfl
  have hmem_iff : ∀ u ∈ l1,
      (u.slug ∈ (get_failed_urls s).map (·.1) ↔ u.status.isFailed = true) := by
    intro u hu
    rw [hFfst]
    constructor
    · intro hm
      obtain ⟨v, hv, hveq⟩ := List.mem_map.mp hm
      have hv1 : v ∈ l1 := List.mem_of_mem_filter hv
      have hvf : v.status.isFailed = true := (List.mem_filter.mp hv).2
      have hveq2 : v = u := hinj
        (by rw [hsplit]; exact List.mem_append_left _ hv1)
        (by rw [hsplit]; exact List.mem_append_left _ hu) hveq
      rw [← hveq2]
      exact hvf
    · intro hf
      exact List.mem_map.mpr ⟨u, List.mem_filter.mpr ⟨hu, hf⟩, rfl⟩
  have hnotmem : ∀ u ∈ l2, u.slug ∉ (get_failed_urls s).map (·.1) := by
    intro u hu hm
    rw [hFfst] at hm
    obtain ⟨v, hv, hveq⟩ := List.mem_map.mp hm
    have hv1 : v ∈ l1 := List.mem_of_mem_filter hv
    have hvf : v.status.isFailed = true := (List.mem_filter.mp hv).2
    have hveq2 : v = u := hinj
      (by rw [hsplit]; exact List.mem_append_left _ hv1)
      (by rw [hsplit]; exact List.mem_append_right _ hu) hveq
    rw [hveq2, h2 u hu] at hvf
    exact absurd hvf (by decide)
  have hN : (get_failed_urls s).length ≠ 0 :=
    fun h => hne (List.length_eq_zero.mp h)
  rw [get_pending_urls_take _ _ hN]
  have hbase : get_pending_urls (reset_failed s (get_failed_urls s)).1 none =
      ((reset_failed s (get_failed_urls s)).1.urls.filter
        (fun u => u.status == Status.pending)).map (fun u => (u.slug, u.url)) := rfl
  rw [hbase, reset_failed_urls_map, hsplit, List.map_append, List.filter_append,
    List.filter_map, List.filter_map]
  have hfl1 : l1.filter ((fun u => u.status == Status.pending) ∘
      (fun u => if u.slug ∈ (get_failed_urls s).map (·.1) then
        { u with status := Status.pending } else u)) =
      l1.filter (fun u => u.status.isFailed) := by
    apply List.filter_congr
    intro u hu
    simp only [Function.comp_apply]
    by_cases hf : u.status.isFailed = true
    · rw [if_pos ((hmem_iff u hu).mpr hf), hf]
      rfl
    · rw [if_neg (fun hm => hf ((hmem_iff u hu).mp hm))]
      cases hst : u.status with
      | pending => exact absurd hst (h1 u hu)
      | processing => rfl
      | done => rfl
      | failed_expansion => exfalso; apply hf; rw [hst]; rfl
      | failed_validation => exfalso; apply hf; rw [hst]; rfl
  have hfl2 : l2.filter ((fun u => u.status == Status.pending) ∘
      (fun u => if u.slug ∈ (get_failed_urls s).map (·.1) then
        { u with status := Status.pending } else u)) = l2 := by
    rw [List.filter_eq_self]
    intro u hu
    simp only [Function.comp_apply]
    rw [if_neg (hnotmem u hu), h2 u hu]
    rfl
  have hgl2 : l2.map (fun u => if u.slug ∈ (get_failed_urls s).map (·.1) then
      { u with status := Status.pending } else u) = l2 := by
    conv_rhs => rw [← List.map_id l2]
    apply List.map_congr_left
    intro u hu
    rw [if_neg (hnotmem u hu)]
    rfl
  rw [hfl1, hfl2, hgl2, List.map_append, List.map_map]
  have hpair : List.map ((fun u => (u.slug, u.url)) ∘
      (fun u => if u.slug ∈ (get_failed_urls s).map (·.1) then
        { u with status := Status.pending } else u))
      (l1.filter (fun u => u.status.isFailed)) =
      List.map (fun u => (u.slug, u.url))
        (l1.filter (fun u => u.status.isFailed)) := by
    apply List.map_congr_left
    intro u _
    simp only [Function.comp_apply]
    by_cases hm : u.slug ∈ (get_failed_urls s).map (·.1)
    · rw [if_pos hm]
    · rw [if_neg hm]
  rw [hpair]
  have hlen : (get_failed_urls s).length =
      (List.map (fun u => (u.slug, u.url))
        (l1.filter (fun u => u.status.isFailed))).length := by
    rw [hfailed, List.length_map, List.length_map]
  rw [hlen, List.take_left, hfailed, List.map_map]
  rfl

theorem pendingSplit_dbInit : pendingSplit dbInit :=
  ⟨[], [], rfl, fun u hu => absurd hu (List.not_mem_nil u),
    fun u hu => absurd hu (List.not_mem_nil u)⟩

theorem pendingSplit_add_url (s : DbState) (slug url : String)
    (h : pendingSplit s) : pendingSplit (add_url s slug url).1 := by
  obtain ⟨l1, l2, hsplit, h1, h2⟩ := h
  unfold add_url
  split
  · exact ⟨l1, l2, hsplit, h1, h2⟩
  · refine ⟨l1, l2 ++ [⟨slug, url, .pending, none, 0⟩], ?_, h1, ?_⟩
    · show s.urls ++ [⟨slug, url, .pending, none, 0⟩] =
        l1 ++ (l2 ++ [⟨slug, url, .pending, none, 0⟩])
      rw [hsplit, List.append_assoc]
    · intro u hu
      rcases List.mem_append.mp hu with h | h
      · exact h2 u h
      · rw [List.mem_singleton.mp h]

theorem pendingSplit_process_pending (env : Env) (rid : String)
    (limit : Option Nat) (s : DbState) (hnd : (slugs s).Nodup)
    (h : pendingSplit s) : pendingSplit (process_pending_urls env rid limit s).1 := by
  obtain ⟨l1, l2, hsplit, h1, h2⟩ := h
  have hinj : ∀ ⦃x : UrlRec⦄, x ∈ s.urls → ∀ ⦃y : UrlRec⦄, y ∈ s.urls →
      x.slug = y.slug → x = y := List.inj_on_of_nodup_map hnd
  obtain ⟨m, hq⟩ := get_pending_urls_split_take hsplit h1 h2 limit
  unfold process_pending_urls
  simp only
  split
  · exact ⟨l1, l2, hsplit, h1, h2⟩
  · obtain ⟨f, hfu, hfslug, hfid⟩ :=
      process_list_urls_map env rid (get_pending_urls s limit) s
    have hqfst : (get_pending_urls s limit).map (·.1) =
        (l2.take m).map (·.slug) := by
      rw [hq, List.map_map]
      rfl
    have hl2nd : (l2.map (·.slug)).Nodup := by
      have hss : slugs s = l1.map (·.slug) ++ l2.map (·.slug) := by
        unfold slugs
        rw [hsplit, List.map_append]
      rw [hss] at hnd
      exact (List.nodup_append.mp hnd).2.1
    have hnotl1 : ∀ u ∈ l1, u.slug ∉ (get_pending_urls s limit).map (·.1) := by
      intro u hu hm
      rw [hqfst] at hm
      obtain ⟨v, hv, hveq⟩ := List.mem_map.mp hm
      have hv2 : v ∈ l2 := List.take_subset m l2 hv
      have hvu : v = u := hinj (by rw [hsplit]; exact List.mem_append_right _ hv2)
        (by rw [hsplit]; exact List.mem_append_left _ hu) hveq
      apply h1 u hu
      rw [← hvu]
      exact h2 v hv2
    have hnotdrop : ∀ u ∈ l2.drop m,
        u.slug ∉ (get_pending_urls s limit).map (·.1) := by
      intro u hu hm
      rw [hqfst] at hm
      have hnd2 : ((l2.take m).map (·.slug) ++ (l2.drop m).map (·.slug)).Nodup := by
        rw [← List.map_append, List.take_append_drop]
        exact hl2nd
      exact (List.nodup_append.mp hnd2).2.2 hm (List.mem_map.mpr ⟨u, hu, rfl⟩)
    have hdone := process_list_status_done_or_failed env rid
      (get_pending_urls s limit) s (fun x hx => pending_mem_status hnd hx)
      (List.Sublist.nodup (pending_map_fst_sublist s limit) hnd)
    have hnds' : (slugs (process_list env rid s (get_pending_urls s limit)).1).Nodup := by
      rw [slugs_process_list]
      exact hnd
    refine ⟨l1.map f ++ (l2.take m).map f, (l2.drop m).map f, ?_, ?_, ?_⟩
    · rw [hfu, hsplit, List.map_append]
      conv_lhs => rw [← List.take_append_drop m l2]
      rw [List.map_append, List.append_assoc]
    · intro x hx
      rcases List.mem_append.mp hx with hx | hx
      · obtain ⟨u, hu, rfl⟩ := List.mem_map.mp hx
        rw [hfid u (hnotl1 u hu)]
        exact h1 u hu
      · obtain ⟨u, hu, rfl⟩ := List.mem_map.mp hx
        have humem : u.slug ∈ (get_pending_urls s limit).map (·.1) := by
          rw [hqfst]
          exact List.mem_map.mpr ⟨u, hu, rfl⟩
        have hrow : getStatus (process_list env rid s (get_pending_urls s limit)).1
            u.slug = some (f u).status :=
          getStatus_of_mem_nodup hnds'
            (by
              rw [hfu]
              exact List.mem_map.mpr ⟨u,
                (by rw [hsplit]
                    exact List.mem_append_right _ (List.take_subset m l2 hu)), rfl⟩)
            (hfslug u)
        rcases hdone u.slug humem with hst | hst
        · rw [hrow] at hst
          rw [Option.some.inj hst]
          decide
        · rw [hrow] at hst
          rw [Option.some.inj hst]
          decide
    · intro x hx
      obtain ⟨u, hu, rfl⟩ := List.mem_map.mp hx
      rw [hfid u (hnotdrop u hu)]
      exact h2 u (List.drop_subset m l2 hu)

theorem pendingSplit_of_map {s' : DbState} {l1 l2 : List UrlRec}
    {h : UrlRec → UrlRec} (hurls : s'.urls = (l1 ++ l2).map h)
    (h1 : ∀ u ∈ l1, (h u).status ≠ .pending)
    (h2 : ∀ u ∈ l2, (h u).status = .pending) : pendingSplit s' := by
  refine ⟨l1.map h, l2.map h, ?_, ?_, ?_⟩
  · rw [hurls, List.map_append]
  · intro x hx
    obtain ⟨u, hu, rfl⟩ := List.mem_map.mp hx
    exact h1 u hu
  · intro x hx
    obtain ⟨u, hu, rfl⟩ := List.mem_map.mp hx
    exact h2 u hu

theorem pendingSplit_retry (env : Env) (rid : String) (s : DbState)
    (hnd : (slugs s).Nodup) (h : pendingSplit s) :
    pendingSplit (retry_failed_urls env rid s).1 := by
  obtain ⟨l1, l2, hsplit, h1, h2⟩ := h
  have hinj : ∀ ⦃x : UrlRec⦄, x ∈ s.urls → ∀ ⦃y : UrlRec⦄, y ∈ s.urls →
      x.slug = y.slug → x = y := List.inj_on_of_nodup_map hnd
  have hfailed : get_failed_urls s =
      (l1.filter (fun u => u.status.isFailed)).map
        (fun u => (u.slug, u.url, u.last_error)) := get_failed_urls_split hsplit h2
  have hFfst : (get_failed_urls s).map (·.1) =
      (l1.filter (fun u => u.status.isFailed)).map (·.slug) := by
    rw [hfailed, List.map_map]
    rfl
  have hmem_iff : ∀ u ∈ l1,
      (u.slug ∈ (get_failed_urls s).map (·.1) ↔ u.status.isFailed = true) := by
    intro u hu
    rw [hFfst]
    constructor
    · intro hm
      obtain ⟨v, hv, hveq⟩ := List.mem_map.mp hm
      have hv1 : v ∈ l1 := List.mem_of_mem_filter hv
      have hvf : v.status.isFailed = true := (List.mem_filter.mp hv).2
      have hveq2 : v = u := hinj
        (by rw [hsplit]; exact List.mem_append_left _ hv1)
        (by rw [hsplit]; exact List.mem_append_left _ hu) hveq
      rw [← hveq2]
      exact hvf
    · intro hf
      exact List.mem_map.mpr ⟨u, List.mem_filter.mpr ⟨hu, hf⟩, rfl⟩
  have hnotmem : ∀ u ∈ l2, u.slug ∉ (get_failed_urls s).map (·.1) := by
    intro u hu hm
    rw [hFfst] at hm
    obtain ⟨v, hv, hveq⟩ := List.mem_map.mp hm
    have hv1 : v ∈ l1 := List.mem_of_mem_filter hv
    have hvf : v.status.isFailed = true := (List.mem_filter.mp hv).2
    have hveq2 : v = u := hinj
      (by rw [hsplit]; exact List.mem_append_left _ hv1)
      (by rw [hsplit]; exact List.mem_append_right _ hu) hveq
    rw [hveq2, h2 u hu] at hvf
    exact absurd hvf (by decide)
  unfold retry_failed_urls
  simp only
  split
  · exact ⟨l1, l2, hsplit, h1, h2⟩
  · rename_i hne'
    have hne : get_failed_urls s ≠ [] := by
      intro hh
      apply hne'
      rw [hh]
      rfl
    have hcore := retry_core hnd hsplit h1 h2 hne
    have hcond : ¬((((get_failed_urls s).map (fun t => (t.1, t.2.1))).isEmpty) = true) := by
      intro hc
      rw [List.isEmpty_iff] at hc
      exact hne (List.map_eq_nil.mp hc)
    have hpp : (process_pending_urls env rid (some (get_failed_urls s).length)
        (reset_failed s (get_failed_urls s)).1).1 =
        (process_list env rid (reset_failed s (get_failed_urls s)).1
          ((get_failed_urls s).map (fun t => (t.1, t.2.1)))).1 := by
      unfold process_pending_urls
      simp only
      rw [hcore, if_neg hcond]
    rw [hpp]
    obtain ⟨f, hfu, hfslug, hfid⟩ := process_list_urls_map env rid
      ((get_failed_urls s).map (fun t => (t.1, t.2.1)))
      (reset_failed s (get_failed_urls s)).1
    have hLfst : (((get_failed_urls s).map (fun t => (t.1, t.2.1))).map (·.1)) =
        (get_failed_urls s).map (·.1) := by
      rw [List.map_map]
      rfl
    have hndL : ((((get_failed_urls s).map (fun t => (t.1, t.2.1))).map (·.1))).Nodup := by
      rw [hLfst]
      exact List.Sublist.nodup (failed_map_fst_sublist s) hnd
    have hpend1 : ∀ x ∈ (get_failed_urls s).map (fun t => (t.1, t.2.1)),
        getStatus (reset_failed s (get_failed_urls s)).1 x.1 = some .pending := by
      intro x hx
      have hx1 : x.1 ∈ (get_failed_urls s).map (·.1) := by
        rw [← hLfst]
        exact List.mem_map.mpr ⟨x, hx, rfl⟩
      obtain ⟨t, ht, hteq⟩ := List.mem_map.mp hx1
      obtain ⟨st, hst, _⟩ := failed_mem_status hnd ht
      rw [reset_failed_getStatus_mem _ s hx1, ← hteq, hst]
      rfl
    have hdone := process_list_status_done_or_failed env rid
      ((get_failed_urls s).map (fun t => (t.1, t.2.1)))
      (reset_failed s (get_failed_urls s)).1 hpend1 hndL
    have hnds' : (slugs (process_list env rid (reset_failed s (get_failed_urls s)).1
        ((get_failed_urls s).map (fun t => (t.1, t.2.1)))).1).Nodup := by
      rw [slugs_process_list, slugs_reset_failed]
      exact hnd
    apply @pendingSplit_of_map _ l1 l2
      (fun u => f (if u.slug ∈ (get_failed_urls s).map (·.1) then
        { u with status := Status.pending } else u))
    · rw [hfu, reset_failed_urls_map, hsplit, List.map_map]
      exact List.map_congr_left (fun u _ => rfl)
    · intro u hu
      show (f (if u.slug ∈ (get_failed_urls s).map (·.1) then
        { u with status := Status.pending } else u)).status ≠ Status.pending
      by_cases hm : u.slug ∈ (get_failed_urls s).map (·.1)
      · rw [if_pos hm]
        have hwmem : ({ u with status := Status.pending } : UrlRec) ∈
            (reset_failed s (get_failed_urls s)).1.urls := by
          rw [reset_failed_urls_map]
          refine List.mem_map.mpr ⟨u, by rw [hsplit]; exact List.mem_append_left _ hu, ?_⟩
          show (if u.slug ∈ (get_failed_urls s).map (·.1) then
            { u with status := Status.pending } else u) = { u with status := Status.pending }
          rw [if_pos hm]
        have hfwmem : f { u with status := Status.pending } ∈
            (process_list env rid (reset_failed s (get_failed_urls s)).1
              ((get_failed_urls s).map (fun t => (t.1, t.2.1)))).1.urls := by
          rw [hfu]
          exact List.mem_map.mpr ⟨_, hwmem, rfl⟩
        have hrow : getStatus (process_list env rid
            (reset_failed s (get_failed_urls s)).1
            ((get_failed_urls s).map (fun t => (t.1, t.2.1)))).1 u.slug =
            some (f { u with status := Status.pending }).status :=
          getStatus_of_mem_nodup hnds' hfwmem
            (by rw [hfslug ({ u with status := Status.pending } : UrlRec)])
        have hmL : u.slug ∈ ((get_failed_urls s).map (fun t => (t.1, t.2.1))).map (·.1) := by
          rw [hLfst]
          exact hm
        rcases hdone u.slug hmL with hst | hst
        · rw [hrow] at hst
          rw [Option.some.inj hst]
          decide
        · rw [hrow] at hst
          rw [Option.some.inj hst]
          decide
      · rw [if_neg hm]
        have hnotL : u.slug ∉ (((get_failed_urls s).map
            (fun t => (t.1, t.2.1))).map (·.1)) := by
          rw [hLfst]
          exact hm
        rw [hfid u hnotL]
        exact h1 u hu
    · intro u hu
      show (f (if u.slug ∈ (get_failed_urls s).map (·.1) then
        { u with status := Status.pending } else u)).status = Status.pending
      have hnotL : u.slug ∉ (((get_failed_urls s).map
          (fun t => (t.1, t.2.1))).map (·.1)) := by
        rw [hLfst]
        exact hnotmem u hu
      rw [if_neg (hnotmem u hu), hfid u hnotL]
      exact h2 u hu

theorem pendingSplit_applyOp (op : Op) (s : DbState) (hnd : (slugs s).Nodup)
    (h : pendingSplit s) : pendingSplit (applyOp s op) := by
  cases op with
  | addUrl slug url => exact pendingSplit_add_url s slug url h
  | processPending env rid limit =>
    exact pendingSplit_process_pending env rid limit s hnd h
  | retryFailed env rid => exact pendingSplit_retry env rid s hnd h

theorem pendingSplit_reachable {s : DbState} (hs : Reachable s) :
    pendingSplit s := by
  induction hs with
  | init => exact pendingSplit_dbInit
  | step op hr _ ih =>
    exact pendingSplit_applyOp op _ (nodup_slugs_of_reachable hr) ih

/-! ## Claims -/

/-- C7: `validate_page` returns `validation_passed = true` if and only if the
number of visible elements matching the hidden-content selectors is zero; in
its result, `hidden_sections_count` equals that number and `expansion_valid`
holds exactly when `hidden_sections_count` is zero, with an error message
appended whenever it is positive. -/
theorem validate_page_spec (p : Page) :
    ((validate_page p).validation_passed = true ↔ visible_hidden_count p = 0) ∧
    (validate_page p).hidden_sections_count = visible_hidden_count p ∧
    ((validate_page p).expansion_valid = true ↔
      (validate_page p).hidden_sections_count = 0) ∧
    (0 < visible_hidden_count p →
      (validate_page p).errors =
        ["Found " ++ toString (visible_hidden_count p) ++ " hidden sections"]) ∧
    (visible_hidden_count p = 0 → (validate_page p).errors = []) := by
  have hc := check_hidden_sections_eq p
  unfold validate_page
  simp only
  refine ⟨?_, hc, ?_, ?_, ?_⟩
  · rw [hc]; simp
  · simp
  · intro h; rw [hc, if_pos h]
  · intro h; rw [hc, if_neg (by omega)]

/-- Witness for C7 at a concrete page with one visible hidden-content
element and at the empty page. -/
theorem validate_page_spec_witness :
    (validate_page ⟨[⟨["text='Read more'"], true, none, none⟩]⟩).errors =
      ["Found 1 hidden sections"] ∧
    (validate_page ⟨[]⟩).errors = [] :=
  ⟨(validate_page_spec ⟨[⟨["text='Read more'"], true, none, none⟩]⟩).2.2.2.1
      (by decide),
    (validate_page_spec ⟨[]⟩).2.2.2.2 (by decide)⟩

/-- C5: URL identifiers are unique and insertion is idempotent: in every
reachable database state at most one URL record exists per slug, and for
every slug already present in the `urls` table, `add_url` returns `True` and
leaves the table unchanged. -/
theorem add_url_unique_idempotent :
    (∀ s : DbState, Reachable s → (slugs s).Nodup) ∧
    (∀ (s : DbState) (slug url : String), (∃ u ∈ s.urls, u.slug = slug) →
      add_url s slug url = (s, true)) := by
  constructor
  · intro s hs
    exact nodup_slugs_of_reachable hs
  · intro s slug url h
    obtain ⟨u, hu, hslug⟩ := h
    unfold add_url
    rw [if_pos (List.any_eq_true.mpr ⟨u, hu, by simpa using hslug⟩)]

/-- C8: `fully_expand` returns normally when, after running its expansion
strategies, no visible element matching the hidden-content selectors remains
on the page, and raises `ExpansionFailure` otherwise; the whole strategy
sequence is retried up to 4 attempts before the failure propagates to the
caller. -/
theorem fully_expand_spec (effects : Page → Page) (p : Page) :
    (∀ q, fully_expand effects p = .ok q → expander_clean q) ∧
    ((∃ q, fully_expand effects p = .ok q) ↔
      ∃ k, 1 ≤ k ∧ k ≤ 4 ∧ expander_clean (effects^[k] p)) ∧
    ((∃ e, fully_expand effects p = .error e) ↔
      ∀ k, 1 ≤ k → k ≤ 4 → ¬ expander_clean (effects^[k] p)) := by
  have hok := fully_expand_go_ok_iff effects 4 p (by omega)
  refine ⟨?_, ?_, ?_⟩
  · intro q hq
    rw [← verify_total_hidden_eq_zero_iff]
    exact fully_expand_go_clean effects 4 p q hq
  · rw [show fully_expand effects p = fully_expand_go effects 4 p from rfl, hok]
    constructor
    · intro ⟨k, h1, h2, h3⟩
      exact ⟨k, h1, h2, (verify_total_hidden_eq_zero_iff _).mp h3⟩
    · intro ⟨k, h1, h2, h3⟩
      exact ⟨k, h1, h2, (verify_total_hidden_eq_zero_iff _).mpr h3⟩
  · rw [except_error_iff_not_ok,
      show fully_expand effects p = fully_expand_go effects 4 p from rfl, hok]
    push_neg
    constructor
    · intro h k h1 h2 hcl
      exact (h k h1 h2) ((verify_total_hidden_eq_zero_iff _).mpr hcl)
    · intro h k h1 h2 hv
      exact (h k h1 h2) ((verify_total_hidden_eq_zero_iff _).mp hv)

/-- Witness for C8: on the empty page with identity strategies, expansion
succeeds on the first attempt. -/
theorem fully_expand_spec_witness :
    expander_clean (Page.mk []) ∧
    (∃ q, fully_expand (fun q => q) (Page.mk []) = .ok q) :=
  ⟨(fully_expand_spec (fun q => q) ⟨[]⟩).1 ⟨[]⟩ rfl,
    ((fully_expand_spec (fun q => q) ⟨[]⟩).2.1).mpr
      ⟨1, le_refl 1, by omega, by decide⟩⟩

/-- C9: `shoot_sections` captures one cropped screenshot per located section
header inside the content area, one `(filename, index, title)` triple per
section with indices in ascending page-position order (the headers are
sorted ascending by their bounding-box `y` and enumerated in that order);
when no section headers are found it falls back to the chunked capture of
the content area, and when no content area is located it falls back to a
single full-page capture. -/
theorem shoot_sections_spec (p : Page) (slug : String) :
    shoot_sections p slug = shoot_sections_with (some ⟨380, 56, 848, 1200⟩) p slug ∧
    (∀ ca : BBox, get_section_headers p ca ≠ [] →
      shoot_sections_with (some ca) p slug =
        (get_section_headers p ca).enum.map
          (fun ih => (sec_filename ih.2 ih.1, ih.1, sec_title ih.2 ih.1))) ∧
    (∀ ca : BBox, get_section_headers p ca ≠ [] →
      (shoot_sections_with (some ca) p slug).map (fun t => t.2.1) =
        List.range (get_section_headers p ca).length) ∧
    (∀ ca : BBox,
      List.Sorted (· ≤ ·)
        ((get_section_headers p ca).filterMap (fun h => h.bbox.map (·.y)))) ∧
    (∀ ca : BBox, get_section_headers p ca = [] →
      shoot_sections_with (some ca) p slug = capture_content_area ca slug) ∧
    shoot_sections_with none p slug = capture_full_page slug := by
  refine ⟨rfl, ?_, ?_, ?_, ?_, rfl⟩
  · intro ca h
    simp only [shoot_sections_with]
    rw [if_neg (by simpa using h)]
  · intro ca h
    simp only [shoot_sections_with]
    rw [if_neg (by simpa using h), List.map_map]
    exact List.enum_map_fst _
  · intro ca
    exact get_section_headers_sorted p ca
  · intro ca h
    simp only [shoot_sections_with]
    rw [if_pos (by simpa using h)]

/-- Witness for C9 at a page holding a single `h2` header inside the content
area, plus the chunked and full-page fallbacks on the empty page. -/
theorem shoot_sections_spec_witness :
    shoot_sections_with (some ⟨380, 56, 848, 1200⟩)
        ⟨[⟨["h2"], true, some ⟨400, 100, 100, 20⟩, some "Overview"⟩]⟩ "card" =
      [("sec_000_Overview.png", 0, "Overview")] ∧
    shoot_sections_with (some ⟨380, 56, 848, 1200⟩) ⟨[]⟩ "card" =
      capture_content_area ⟨380, 56, 848, 1200⟩ "card" ∧
    shoot_sections_with none ⟨[]⟩ "card" = capture_full_page "card" := by
  refine ⟨?_, ?_, (shoot_sections_spec ⟨[]⟩ "card").2.2.2.2.2⟩
  · have hne : get_section_headers
        ⟨[⟨["h2"], true, some ⟨400, 100, 100, 20⟩, some "Overview"⟩]⟩
        ⟨380, 56, 848, 1200⟩ ≠ [] := by
      unfold get_section_headers
      simp [section_selectors, locator, header_in_area, List.mergeSort]
    rw [(shoot_sections_spec _ "card").2.1 _ hne]
    unfold get_section_headers
    simp [section_selectors, locator, header_in_area, List.mergeSort,
      sec_filename, sec_title, sanitize_filename, strip_space_dot,
      strip_whitespace, pad3, invalid_filename_char]
    all_goals decide
  · rw [(shoot_sections_spec ⟨[]⟩ "card").2.2.2.2.1 _ ?_]
    unfold get_section_headers
    simp [section_selectors, locator, List.mergeSort]

/-- C2: across every sequence of orchestrator operations, a URL's status
only advances along pending → processing → done/failed_expansion/
failed_validation — at every database statement of every operation, each
slug's status is unchanged, newly pending, or takes a forward edge — and the
only backward transition is the retry workflow resetting a failed status to
pending; in particular, a URL whose status is done never changes status
again. -/
theorem status_monotonic :
    (∀ (s : DbState) (op : Op), Reachable s → opFresh s op →
      List.Chain' (urlStep op.allowsReset) (s :: opTrace s op)) ∧
    (∀ (s : DbState) (op : Op) (slug : String), Reachable s → opFresh s op →
      getStatus s slug = some .done →
      getStatus (applyOp s op) slug = some .done) := by
  constructor
  · intro s op hr _
    have hnd := nodup_slugs_of_reachable hr
    cases op with
    | addUrl slug url => exact chain_add_url false s slug url
    | processPending env rid limit => exact chain_process_pending false env rid limit s hnd
    | retryFailed env rid => exact chain_retry env rid s hnd
  · intro s op slug hr _ hdone
    have hnd := nodup_slugs_of_reachable hr
    cases op with
    | addUrl slug' url =>
      rw [applyOp, getStatus_add_url_isSome s slug slug' url (by rw [hdone]; rfl)]
      exact hdone
    | processPending env rid limit =>
      exact process_pending_getStatus_stable env rid limit hnd hdone
        (fun h => Status.noConfusion h)
    | retryFailed env rid =>
      exact retry_getStatus_stable env rid hnd hdone
        (fun h => Status.noConfusion h) rfl

/-- Witness for C2: the discovery insert on the fresh database satisfies the
chain property, and a URL finished as done survives a retry run with its
status intact. -/
theorem status_monotonic_witness :
    List.Chain' (urlStep ((Op.addUrl "a" "u").allowsReset))
      (dbInit :: opTrace dbInit (.addUrl "a" "u")) ∧
    getStatus (applyOp
      (applyOp (applyOp dbInit (.addUrl "a" "u"))
        (.processPending (fun _ => .success []) "r1" none))
      (.retryFailed (fun _ => .success []) "r2")) "a" = some .done :=
  ⟨status_monotonic.1 dbInit _ Reachable.init trivial,
    status_monotonic.2 _ _ "a"
      (Reachable.step _
        (Reachable.step _ Reachable.init trivial)
        (fun r hr => absurd (by rw [applyOp, add_url_runs] at hr; exact hr)
          (List.not_mem_nil r)))
      (show ∀ r ∈ (applyOp (applyOp dbInit (Op.addUrl "a" "u"))
            (Op.processPending (fun _ => Outcome.success []) "r1" none)).runs,
          r.run_id ≠ "r2" by decide)
      (by decide)⟩

/-- C3: in every state reachable by the orchestrator's operations —
including every intermediate state inside a batch or retry execution — each
URL identifier has at most one run row that has been started but not yet
finished. -/
theorem at_most_one_active_run (s : DbState) (hs : ReachableMid s)
    (slug : String) : numActiveFor s slug ≤ 1 := by
  refine le_trans (numActiveFor_le s slug) ?_
  cases hs with
  | base hr =>
    rw [numActive_eq_zero_of_allFinished (allFinished_reachable hr)]
    omega
  | mid op hr hfresh ht =>
    have hfin := allFinished_reachable hr
    cases op with
    | addUrl slug' url' =>
      simp only [opTrace] at ht
      rcases List.mem_singleton.mp ht with rfl
      rw [numActive_congr (add_url_runs _ slug' url'),
        numActive_eq_zero_of_allFinished hfin]
      omega
    | processPending env rid limit =>
      exact process_pending_trace_numActive env rid limit _ hfin s ht
    | retryFailed env rid =>
      exact retry_trace_numActive env rid _ hfin s ht

/-- Witness for C3 at the state reached mid-execution (the final trace state
of a one-URL batch run from a one-URL database). -/
theorem at_most_one_active_run_witness :
    numActiveFor (applyOp (applyOp dbInit (.addUrl "a" "u"))
      (.processPending (fun _ => .success []) "r1" none)) "a" ≤ 1 :=
  at_most_one_active_run _
    (.mid (.processPending (fun _ => .success []) "r1" none)
      (Reachable.step (.addUrl "a" "u") Reachable.init trivial)
      (by intro r hr; rw [applyOp, add_url_runs] at hr; exact absurd hr (List.not_mem_nil r))
      (by decide))
    "a"

/-- C4: in every state reachable by the orchestrator's operations —
including every intermediate state inside a batch or retry execution — every
image record's `(run_id, slug)` pair refers to an existing run record;
moreover, by the time the batch iteration reaches the `add_image` calls of
`_save_results`, the `start_run` executed earlier in the same iteration (or
a pre-existing row with the same primary key) guarantees the run row
exists. -/
theorem images_reference_runs :
    (∀ s : DbState, ReachableMid s → imagesHaveRuns s) ∧
    (∀ (s : DbState) (rid slug : String),
      s.urls.any (fun u => u.slug == slug) = true →
      ∃ r ∈ (start_run (update_url_status s slug .processing none) rid slug).1.runs,
        r.run_id = rid ∧ r.slug = slug) := by
  constructor
  · intro s hs
    cases hs with
    | base hr => exact imagesHaveRuns_reachable hr
    | mid op hr hfresh ht =>
      have h := imagesHaveRuns_reachable hr
      cases op with
      | addUrl slug url =>
        simp only [opTrace] at ht
        rcases List.mem_singleton.mp ht with rfl
        exact imagesHaveRuns_add_url _ slug url h
      | processPending env rid limit =>
        exact (imagesHaveRuns_process_pending env rid limit _ h).2 _ ht
      | retryFailed env rid =>
        exact (imagesHaveRuns_retry env rid _ h).2 _ ht
  · exact fun s rid slug h => run_exists_when_saving s rid slug h

/-- Witness for C4: a batch run that captures one screenshot, and the
started run row for a concrete one-URL database. -/
theorem images_reference_runs_witness :
    imagesHaveRuns (applyOp (applyOp dbInit (.addUrl "a" "u"))
      (.processPending (fun _ => .success [⟨"f.png", 0, "t"⟩]) "r1" none)) ∧
    (∃ r ∈ (start_run (update_url_status (applyOp dbInit (.addUrl "a" "u"))
        "a" .processing none) "r1" "a").1.runs,
      r.run_id = "r1" ∧ r.slug = "a") :=
  ⟨images_reference_runs.1 _
      (.base (Reachable.step (.processPending (fun _ => .success [⟨"f.png", 0, "t"⟩]) "r1" none)
        (Reachable.step (.addUrl "a" "u") Reachable.init trivial)
        (fun r hr => absurd (by rw [applyOp, add_url_runs] at hr; exact hr)
          (List.not_mem_nil r)))),
    images_reference_runs.2 _ "r1" "a" (by decide)⟩

/-- C1, counterexample: a URL whose attempt fails in post-expansion
validation ends in status `failed_expansion`, not `failed_validation` — the
batch loop passes the literal `"failed_expansion"` to `update_url_status`
for every failure. -/
theorem batch_validation_failure_counterexample :
    getStatus (process_pending_urls
        (fun _ => .validationFailed "Found 2 hidden sections") "r1" none
        ⟨[⟨"a", "u", .pending, none, 0⟩], [], []⟩).1 "a" =
      some .failed_expansion ∧
    getStatus (process_pending_urls
        (fun _ => .validationFailed "Found 2 hidden sections") "r1" none
        ⟨[⟨"a", "u", .pending, none, 0⟩], [], []⟩).1 "a" ≠
      some .failed_validation := by
  constructor <;> decide

/-- C1 (amended): for every URL processed by the orchestrator's batch loop,
the lifecycle status moves from pending to processing when its attempt
starts, and at the end of the attempt becomes done if the attempt succeeded
and `failed_expansion` on any failure — including a post-expansion
validation failure; `failed_validation` never appears during the attempt. -/
theorem process_one_lifecycle (env : Env) (rid : String) (s : DbState)
    (slug url : String) (h : getStatus s slug = some .pending) :
    ((process_one env rid s slug url).2.2.head? =
        some (update_url_status s slug .processing none) ∧
      getStatus (update_url_status s slug .processing none) slug =
        some .processing) ∧
    ((process_one env rid s slug url).2.1 = true →
      getStatus (process_one env rid s slug url).1 slug = some .done) ∧
    ((process_one env rid s slug url).2.1 = false →
      getStatus (process_one env rid s slug url).1 slug =
        some .failed_expansion) ∧
    (∀ t ∈ (process_one env rid s slug url).2.2,
      getStatus t slug ≠ some .failed_validation) := by
  refine ⟨⟨?_, ?_⟩, ?_, ?_, ?_⟩
  · unfold process_one
    simp only
    split <;> rfl
  · rw [getStatus_update_self, h]; rfl
  · intro hok
    rw [process_one_getStatus_self_done env rid s slug url hok, h]; rfl
  · intro hfail
    rw [process_one_getStatus_self_failed env rid s slug url hfail, h]; rfl
  · intro t ht
    rcases process_one_trace_status env rid s slug url h t ht with hh | hh | hh <;>
      rw [hh] <;> simp

/-- Witness for C1: a successful attempt and a failing attempt on concrete
one-URL databases. -/
theorem process_one_lifecycle_witness :
    getStatus (process_one (fun _ => .success []) "r1"
        ⟨[⟨"a", "u", .pending, none, 0⟩], [], []⟩ "a" "u").1 "a" = some .done ∧
    getStatus (process_one (fun _ => .expansionFailed "boom") "r1"
        ⟨[⟨"a", "u", .pending, none, 0⟩], [], []⟩ "a" "u").1 "a" =
      some .failed_expansion :=
  ⟨(process_one_lifecycle (fun _ => .success []) "r1"
      ⟨[⟨"a", "u", .pending, none, 0⟩], [], []⟩ "a" "u" (by decide)).2.1 (by decide),
    (process_one_lifecycle (fun _ => .expansionFailed "boom") "r1"
      ⟨[⟨"a", "u", .pending, none, 0⟩], [], []⟩ "a" "u" (by decide)).2.2.1 (by decide)⟩

/-- C10, counterexample: `get_pending_urls` with a supplied limit of `0`
does not return at most `0` records — Python's `if limit:` treats a zero
limit as no limit, so on a database with one pending URL it returns that
URL. -/
theorem get_pending_urls_limit_zero_counterexample :
    (get_pending_urls ⟨[⟨"a", "u", .pending, none, 0⟩], [], []⟩ (some 0)).length = 1 ∧
    ¬ (get_pending_urls ⟨[⟨"a", "u", .pending, none, 0⟩], [], []⟩ (some 0)).length ≤ 0 := by
  constructor <;> decide

/-- C10 (amended): `get_pending_urls` returns exactly the URL records whose
status is `pending` — at most the given limit when a nonzero limit is
supplied, while a supplied limit of zero is treated as no limit — and
`get_failed_urls` returns exactly those whose status begins with `failed_`;
consequently a URL left in status `processing` is returned by neither query
and its status is never changed by the batch-processing or retry
workflows. -/
theorem queries_exact_and_processing_skipped (s : DbState) :
    (∀ x, x ∈ get_pending_urls s none ↔
      ∃ u ∈ s.urls, u.status = .pending ∧ x = (u.slug, u.url)) ∧
    (∀ n : Nat, n ≠ 0 →
      get_pending_urls s (some n) = (get_pending_urls s none).take n ∧
      (get_pending_urls s (some n)).length ≤ n) ∧
    get_pending_urls s (some 0) = get_pending_urls s none ∧
    (∀ x, x ∈ get_failed_urls s ↔
      ∃ u ∈ s.urls, u.status.isFailed = true ∧ x = (u.slug, u.url, u.last_error)) ∧
    (∀ st : Status, st.isFailed = ("failed_".toList.isPrefixOf st.text.toList)) ∧
    (∀ slug, (slugs s).Nodup → getStatus s slug = some .processing →
      (∀ limit, slug ∉ (get_pending_urls s limit).map (·.1)) ∧
      slug ∉ (get_failed_urls s).map (·.1) ∧
      (∀ (env : Env) (rid : String) (limit : Option Nat),
        getStatus (process_pending_urls env rid limit s).1 slug = some .processing) ∧
      (∀ (env : Env) (rid : String),
        getStatus (retry_failed_urls env rid s).1 slug = some .processing)) := by
  refine ⟨mem_get_pending_urls_none s, ?_, by simp [get_pending_urls], mem_get_failed_urls s,
    ?_, ?_⟩
  · intro n hn
    refine ⟨get_pending_urls_take s n hn, ?_⟩
    rw [get_pending_urls_take s n hn]
    exact List.length_take_le n _
  · intro st
    cases st <;> decide
  · intro slug hnd hst
    exact ⟨(processing_not_queried hnd hst).1, (processing_not_queried hnd hst).2,
      fun env rid limit => process_pending_getStatus_processing env rid limit hnd hst,
      fun env rid => retry_getStatus_processing env rid hnd hst⟩

/-- Witness for C10 at a database with one processing URL and one pending
URL: the processing one survives a batch run and a retry run untouched. -/
theorem queries_exact_and_processing_skipped_witness :
    getStatus (process_pending_urls (fun _ => .success []) "r1" none
      ⟨[⟨"a", "u", .processing, none, 0⟩, ⟨"b", "v", .pending, none, 0⟩], [], []⟩).1
      "a" = some .processing ∧
    getStatus (retry_failed_urls (fun _ => .success []) "r2"
      ⟨[⟨"a", "u", .processing, none, 0⟩, ⟨"b", "v", .failed_expansion, none, 0⟩], [], []⟩).1
      "a" = some .processing ∧
    (get_pending_urls ⟨[⟨"a", "u", .processing, none, 0⟩], [], []⟩ (some 5)).length ≤ 5 :=
  ⟨(queries_exact_and_processing_skipped _).2.2.2.2.2 "a" (by decide) (by decide)
      |>.2.2.1 _ "r1" none,
    (queries_exact_and_processing_skipped _).2.2.2.2.2 "a" (by decide) (by decide)
      |>.2.2.2 _ "r2",
    ((queries_exact_and_processing_skipped _).2.1 5 (by decide)).2⟩

/-- Witness for C5 at a database holding exactly the slug `"a"`. -/
theorem add_url_unique_idempotent_witness :
    (slugs (applyOp dbInit (.addUrl "a" "u"))).Nodup ∧
    add_url (applyOp dbInit (.addUrl "a" "u")) "a" "u2" =
      (applyOp dbInit (.addUrl "a" "u"), true) :=
  ⟨add_url_unique_idempotent.1 _ (Reachable.step (.addUrl "a" "u") Reachable.init trivial),
    add_url_unique_idempotent.2 _ "a" "u2"
      ⟨⟨"a", "u", .pending, none, 0⟩, by decide, rfl⟩⟩

/-- C6: on every reachable database state, `retry_failed_urls` resets every
URL whose status is `failed_expansion` or `failed_validation` back to
`pending` (the reset loop leaves each of them in status `pending`), then
reprocesses exactly those URLs: the pending query it issues with
`limit = len(failed_urls)` returns precisely the failed URLs, the reported
`processed` count equals their number, and each of them ends in `done` or
`failed_expansion`; a URL in any other status keeps its status, and when no
failed URLs exist the call returns zero counts and leaves the state
untouched. -/
theorem retry_failed_urls_spec (env : Env) (rid : String) {s : DbState}
    (hs : Reachable s) :
    (get_failed_urls s = [] →
      retry_failed_urls env rid s = (s, ⟨0, 0, 0⟩, [])) ∧
    (∀ sl ∈ (get_failed_urls s).map (·.1),
      getStatus (reset_failed s (get_failed_urls s)).1 sl = some .pending) ∧
    (get_failed_urls s ≠ [] →
      get_pending_urls (reset_failed s (get_failed_urls s)).1
          (some (get_failed_urls s).length) =
        (get_failed_urls s).map (fun t => (t.1, t.2.1)) ∧
      (retry_failed_urls env rid s).2.1.processed = (get_failed_urls s).length) ∧
    (∀ sl ∈ (get_failed_urls s).map (·.1),
      getStatus (retry_failed_urls env rid s).1 sl = some .done ∨
      getStatus (retry_failed_urls env rid s).1 sl = some .failed_expansion) ∧
    (∀ sl st, getStatus s sl = some st → st.isFailed = false →
      getStatus (retry_failed_urls env rid s).1 sl = some st) := by
  have hnd := nodup_slugs_of_reachable hs
  obtain ⟨l1, l2, hsplit, h1, h2⟩ := pendingSplit_reachable hs
  have hempty : get_failed_urls s = [] →
      retry_failed_urls env rid s = (s, ⟨0, 0, 0⟩, []) := by
    intro hh
    unfold retry_failed_urls
    simp only
    rw [hh]
    rfl
  have hLfst : (((get_failed_urls s).map (fun t => (t.1, t.2.1))).map (·.1)) =
      (get_failed_urls s).map (·.1) := by
    rw [List.map_map]
    rfl
  have hreset : ∀ sl ∈ (get_failed_urls s).map (·.1),
      getStatus (reset_failed s (get_failed_urls s)).1 sl = some .pending := by
    intro sl hsl
    obtain ⟨t, ht, hteq⟩ := List.mem_map.mp hsl
    obtain ⟨st, hst, _⟩ := failed_mem_status hnd ht
    rw [reset_failed_getStatus_mem _ s hsl, ← hteq, hst]
    rfl
  have hpend1 : ∀ x ∈ (get_failed_urls s).map (fun t => (t.1, t.2.1)),
      getStatus (reset_failed s (get_failed_urls s)).1 x.1 = some .pending := by
    intro x hx
    exact hreset x.1 (by rw [← hLfst]; exact List.mem_map.mpr ⟨x, hx, rfl⟩)
  have hndL : ((((get_failed_urls s).map (fun t => (t.1, t.2.1))).map (·.1))).Nodup := by
    rw [hLfst]
    exact List.Sublist.nodup (failed_map_fst_sublist s) hnd
  have hdone := process_list_status_done_or_failed env rid
    ((get_failed_urls s).map (fun t => (t.1, t.2.1)))
    (reset_failed s (get_failed_urls s)).1 hpend1 hndL
  have hcond' : get_failed_urls s ≠ [] → ¬((get_failed_urls s).isEmpty = true) :=
    fun hne hc => hne (List.isEmpty_iff.mp hc)
  have hcondL : get_failed_urls s ≠ [] →
      ¬((((get_failed_urls s).map (fun t => (t.1, t.2.1))).isEmpty) = true) := by
    intro hne hc
    rw [List.isEmpty_iff] at hc
    exact hne (List.map_eq_nil.mp hc)
  have hcore : get_failed_urls s ≠ [] →
      get_pending_urls (reset_failed s (get_failed_urls s)).1
          (some (get_failed_urls s).length) =
        (get_failed_urls s).map (fun t => (t.1, t.2.1)) :=
    fun hne => retry_core hnd hsplit h1 h2 hne
  have hretry1 : get_failed_urls s ≠ [] →
      (retry_failed_urls env rid s).1 =
        (process_pending_urls env rid (some (get_failed_urls s).length)
          (reset_failed s (get_failed_urls s)).1).1 := by
    intro hne
    unfold retry_failed_urls
    simp only
    rw [if_neg (hcond' hne)]
  have hpp : get_failed_urls s ≠ [] →
      (process_pending_urls env rid (some (get_failed_urls s).length)
        (reset_failed s (get_failed_urls s)).1).1 =
      (process_list env rid (reset_failed s (get_failed_urls s)).1
        ((get_failed_urls s).map (fun t => (t.1, t.2.1)))).1 := by
    intro hne
    unfold process_pending_urls
    simp only
    rw [hcore hne, if_neg (hcondL hne)]
  refine ⟨hempty, hreset, ?_, ?_, ?_⟩
  · intro hne
    refine ⟨hcore hne, ?_⟩
    have hretry2 : (retry_failed_urls env rid s).2.1 =
        (process_pending_urls env rid (some (get_failed_urls s).length)
          (reset_failed s (get_failed_urls s)).1).2.1 := by
      unfold retry_failed_urls
      simp only
      rw [if_neg (hcond' hne)]
    rw [hretry2]
    unfold process_pending_urls
    simp only
    rw [hcore hne, if_neg (hcondL hne)]
    simp only
    rw [List.length_map]
  · intro sl hsl
    have hne : get_failed_urls s ≠ [] := by
      intro hh
      rw [hh] at hsl
      simp at hsl
    rw [hretry1 hne, hpp hne]
    exact hdone sl (by rw [hLfst]; exact hsl)
  · intro sl st hst hnf
    by_cases hp : st = .pending
    · subst hp
      by_cases hFe : get_failed_urls s = []
      · rw [hempty hFe]
        exact hst
      · have hnotf : sl ∉ (get_failed_urls s).map (·.1) :=
          not_failed_not_in_failed_query hnd hst hnf
        have hnotL : sl ∉ (((get_failed_urls s).map
            (fun t => (t.1, t.2.1))).map (·.1)) := by
          rw [hLfst]
          exact hnotf
        rw [hretry1 hFe, hpp hFe,
          process_list_getStatus_not_mem env rid _ _ hnotL,
          reset_failed_getStatus_not_mem _ s hnotf]
        exact hst
    · exact retry_getStatus_stable env rid hnd hst hp hnf

/-- Witness for C6 at a reachable state whose single URL `"a"` is in status
`failed_expansion` (one discovery insert, then a batch in which expansion
failed), retried with a succeeding environment. -/
theorem retry_failed_urls_spec_witness :
    "a" ∈ (get_failed_urls (applyOp (applyOp dbInit (.addUrl "a" "u"))
      (.processPending (fun _ => .expansionFailed "boom") "r1" none))).map (·.1) ∧
    (getStatus (retry_failed_urls (fun _ => .success []) "r2"
        (applyOp (applyOp dbInit (.addUrl "a" "u"))
          (.processPending (fun _ => .expansionFailed "boom") "r1" none))).1 "a" =
        some .done ∨
      getStatus (retry_failed_urls (fun _ => .success []) "r2"
        (applyOp (applyOp dbInit (.addUrl "a" "u"))
          (.processPending (fun _ => .expansionFailed "boom") "r1" none))).1 "a" =
        some .failed_expansion) :=
  ⟨by decide,
    (retry_failed_urls_spec (fun _ => .success []) "r2"
      (Reachable.step (.processPending (fun _ => .expansionFailed "boom") "r1" none)
        (Reachable.step (.addUrl "a" "u") Reachable.init trivial)
        (by
          intro r hr
          rw [applyOp, add_url_runs] at hr
          exact absurd hr (List.not_mem_nil r)))).2.2.2.1 "a" (by decide)⟩

end Amboss
